import Mathlib

/-!
Verification development for the instruction-selection and code-generation
pipeline of a single-target compiler backend (RISCV_temp2 target machine).

The repository's own sources contain the target-machine declaration
(`RISCVTargetMachine.h` / `RISCVTargetMachine.cpp`); the four pipeline
stages (IR Translator, Legalizer, Register Bank Selector, Instruction
Selector) are only referenced there through includes, so their behaviour
is modelled from the design specification.  The target-machine accessors
are embedded directly from the header.
-/

namespace GISel

/-! ## Target machine accessors (embedded from RISCVTargetMachine.h)

The header declares a target machine holding four fixed members
(`DataLayout`, `Subtarget`, `InstrInfo`, `FrameInfo`) and five `const`
accessor methods.  A `const` C++ method is modelled as a function
returning the accessed value together with the post-call machine state;
pointer identity of members is modelled as equality of the designated
member value. -/

/-- Model of `llvm::TargetRegisterInfo` as an opaque record. -/
structure TargetRegisterInfo where
  rid : Nat
deriving DecidableEq

/-- Model of `SparcInstrInfo`: the instruction-info object owns its
register-info object (the header returns `&InstrInfo.getRegisterInfo()`). -/
structure SparcInstrInfo where
  RegInfo : TargetRegisterInfo
deriving DecidableEq

/-- `InstrInfo.getRegisterInfo()` from the header: returns the
register-info member owned by the instruction-info object. -/
def SparcInstrInfo.getRegisterInfo (ii : SparcInstrInfo) : TargetRegisterInfo :=
  ii.RegInfo

/-- Model of `SparcSubtarget` as an opaque record. -/
structure SparcSubtarget where
  sid : Nat
deriving DecidableEq

/-- Model of `TargetFrameInfo` as an opaque record. -/
structure TargetFrameInfo where
  fid : Nat
deriving DecidableEq

/-- Model of `llvm::DataLayout` as an opaque record. -/
structure DataLayoutModel where
  did : Nat
deriving DecidableEq

/-- The target machine of `RISCVTargetMachine.h`: four fixed members, in
the order they are declared in the class. -/
structure RISCVTargetMachine where
  DL : DataLayoutModel
  Subtarget : SparcSubtarget
  InstrInfo : SparcInstrInfo
  FrameInfo : TargetFrameInfo
deriving DecidableEq

/-- `getInstrInfo() const { return &InstrInfo; }` -/
def RISCVTargetMachine.getInstrInfo (tm : RISCVTargetMachine) :
    SparcInstrInfo × RISCVTargetMachine :=
  (tm.InstrInfo, tm)

/-- `getFrameInfo() const { return &FrameInfo; }` -/
def RISCVTargetMachine.getFrameInfo (tm : RISCVTargetMachine) :
    TargetFrameInfo × RISCVTargetMachine :=
  (tm.FrameInfo, tm)

/-- `getSubtargetImpl() const { return &Subtarget; }` -/
def RISCVTargetMachine.getSubtargetImpl (tm : RISCVTargetMachine) :
    SparcSubtarget × RISCVTargetMachine :=
  (tm.Subtarget, tm)

/-- `getRegisterInfo() const { return &InstrInfo.getRegisterInfo(); }` -/
def RISCVTargetMachine.getRegisterInfo (tm : RISCVTargetMachine) :
    TargetRegisterInfo × RISCVTargetMachine :=
  (tm.InstrInfo.getRegisterInfo, tm)

/-- `getDataLayout() const { return &DataLayout; }` -/
def RISCVTargetMachine.getDataLayout (tm : RISCVTargetMachine) :
    DataLayoutModel × RISCVTargetMachine :=
  (tm.DL, tm)

/-! ## Data model of the pipeline (modelled from the spec, section 3) -/

/-- Modelled from the spec: a value type is a bit width together with a
coarse class (integer / float / vector / pointer, encoded as a number). -/
structure Ty where
  width : Nat
  cls : Nat
deriving DecidableEq

/-- Modelled from the spec: an operand descriptor is a tagged variant over
virtual register reference (opaque identifier plus associated type),
immediate constant, memory reference, and basic-block label. -/
inductive Operand where
  | vreg (r : Nat) (ty : Option Ty)
  | imm (v : Int)
  | mem (a : Nat)
  | label (b : Nat)
deriving DecidableEq

/-- Modelled from the spec: an instruction is a tuple of operation id,
ordered operand list, and optional result (a virtual register with an
optional result type, refined over the pipeline). -/
structure Instr where
  op : Nat
  operands : List Operand
  res : Option Nat
  resTy : Option Ty
deriving DecidableEq

/-- Modelled from the spec: the per-function working set — an ordered
sequence of basic blocks, each an ordered sequence of instructions,
together with the bank assignment produced by the Register Bank Selector
and the arena's next fresh virtual-register index. -/
structure FunctionUnit where
  blocks : List (List Instr)
  vregBank : List (Nat × Nat)
  nextReg : Nat
deriving DecidableEq

/-- Modelled from the spec: the named lowering strategies of the
Legalizer — widen, narrow/split, promote-and-truncate, expand into a
sequence of generic operations, or convert to a library call. -/
inductive Strategy where
  | widen (w : Nat)
  | narrow (w : Nat) (parts : Nat)
  | promote (t : Ty)
  | expand (ops : List Nat)
  | libcall (callee : Nat)
deriving DecidableEq

/-- Modelled from the spec: a capability entry is an operation id, the
list of legal (type, bank) combinations, and an optional lowering
strategy used when the operation/type pair is illegal. -/
structure CapEntry where
  op : Nat
  legal : List (Ty × Nat)
  lowering : Option Strategy
deriving DecidableEq

/-- Modelled from the spec: an instruction pattern is a root operation
shape, the required legal (type, bank) set, a priority (lower number =
more specific, tried first), and the concrete instruction template. -/
structure Pattern where
  rootOp : Nat
  req : List (Ty × Nat)
  prio : Nat
  template : Nat
deriving DecidableEq

/-- Modelled from the spec: the immutable per-target Capability Table —
capability entries, the priority-ordered instruction patterns, the set of
terminator operation ids, and the distinguished generic operations used
by lowering (extend, truncate, cross-bank copy, library call). -/
structure CapTable where
  entries : List CapEntry
  patterns : List Pattern
  termOps : List Nat
  extOp : Nat
  truncOp : Nat
  copyOp : Nat
  callOp : Nat
deriving DecidableEq

/-- The capability entry declared for an operation id, if any. -/
def entryFor (tbl : CapTable) (op : Nat) : Option CapEntry :=
  tbl.entries.find? (fun e => e.op == op)

/-- Modelled from the spec: an operation/type pair is legal when the
table declares the pair in the entry's legal set; an operation with no
result type is legal as soon as the table has an entry for it. -/
def isLegalPair (tbl : CapTable) (op : Nat) (t : Option Ty) : Bool :=
  match entryFor tbl op, t with
  | some e, some ty => (e.legal.find? (fun tb => tb.1 == ty)).isSome
  | some _, none => true
  | none, _ => false

/-- The bank the table assigns to a value of the given type produced or
consumed by the given operation: the bank of the first legal combination
declared for that type. -/
def bankFor (tbl : CapTable) (op : Nat) (t : Option Ty) : Option Nat :=
  match entryFor tbl op, t with
  | some e, some ty => (e.legal.find? (fun tb => tb.1 == ty)).map (fun tb => tb.2)
  | _, _ => none

/-! ## Diagnostics (spec, sections 6 and 7) -/

/-- The four core stages, in their fixed pipeline order. -/
inductive CoreStage where
  | irTranslator
  | legalizer
  | regBankSelect
  | instructionSelect
deriving DecidableEq

/-- Modelled from the spec: the structured configuration-defect
diagnostics — missing capability entry (naming the operation), an illegal
pair whose entry declares no strategy, a cyclic legalization chain, fuel
exhaustion (never actually reported, see the bounded-termination
theorem), and an unmatched pattern naming operation, type and bank. -/
inductive DiagKind where
  | missingEntry (op : Nat)
  | noStrategy (op : Nat) (t : Option Ty)
  | cyclicChain (op : Nat) (t : Option Ty)
  | outOfFuel
  | noPattern (op : Nat) (t : Option Ty) (bank : Option Nat)
deriving DecidableEq

/-- A fatal diagnostic: the stage that failed plus the structured kind. -/
structure Diag where
  stage : CoreStage
  kind : DiagKind
deriving DecidableEq

/-! ## Legalizer (modelled from the spec, section 4.2)

The Legalizer rewrites every illegal operation/type pair with the
strategy declared in the Capability Table until a fixed point is reached.
The per-pair rewriting chain is computed by a depth-first search that
keeps the ancestors of the current pair on the current chain; revisiting
an ancestor is a cyclic legalization chain, reported as a configuration
error.  Fuel bounds the recursion; the bounded-termination theorem shows
the fuel computed from the table is never exhausted. -/

/-- Replace the width of an optional type, keeping its class. -/
def setWidth (t : Option Ty) (w : Nat) : Option Ty :=
  t.map (fun ty => ⟨w, ty.cls⟩)

/-- Modelled from the spec: the operation/type pairs an illegal pair is
rewritten to by one application of the declared strategy, in the order
the replacement instructions are emitted.  Widening emits an extend at
the widened type, the operation at the widened type, and a truncate back
to the original type; narrowing splits into `parts` legal-width copies;
promotion re-types the operation and truncates back; expansion emits the
declared operation sequence at the current type; a library call emits the
generic call operation. -/
def succsOf (tbl : CapTable) (st : Strategy) (p : Nat × Option Ty) :
    List (Nat × Option Ty) :=
  match st with
  | .widen w => [(tbl.extOp, setWidth p.2 w), (p.1, setWidth p.2 w), (tbl.truncOp, p.2)]
  | .narrow w parts => List.replicate parts (p.1, setWidth p.2 w)
  | .promote t => [(p.1, some t), (tbl.truncOp, p.2)]
  | .expand ops => ops.map (fun o => (o, p.2))
  | .libcall _ => [(tbl.callOp, p.2)]

/-- One step of the legalization-chain relation: an illegal pair with a
declared strategy is rewritten to each of its successors. -/
def stepRel (tbl : CapTable) (p q : Nat × Option Ty) : Prop :=
  isLegalPair tbl p.1 p.2 = false ∧
    ∃ e, entryFor tbl p.1 = some e ∧ ∃ st, e.lowering = some st ∧ q ∈ succsOf tbl st p

/-- Modelled from the spec: a table has no cyclic legalization chains
when no pair can be rewritten back to itself. -/
def acyclicTable (tbl : CapTable) : Prop :=
  ∀ p, ¬ Relation.TransGen (stepRel tbl) p p

/-- Legalize a list of operation/type pairs with the given single-pair
search, concatenating the results in order. -/
def legalizeMany
    (f : List (Nat × Option Ty) → (Nat × Option Ty) →
      Except Diag (List (Nat × Option Ty)))
    (anc : List (Nat × Option Ty)) :
    List (Nat × Option Ty) → Except Diag (List (Nat × Option Ty))
  | [] => .ok []
  | q :: qs =>
    match f anc q with
    | .error d => .error d
    | .ok l =>
      match legalizeMany f anc qs with
      | .error d => .error d
      | .ok ls => .ok (l ++ ls)

/-- Legalize one operation/type pair: if legal, it is kept; if it is an
ancestor on the current chain, the chain is cyclic and reported; if the
table has no entry or no strategy for it, that configuration defect is
reported; otherwise the declared strategy's successors are legalized. -/
def legalizeOne (tbl : CapTable) : Nat → List (Nat × Option Ty) →
    (Nat × Option Ty) → Except Diag (List (Nat × Option Ty))
  | 0, _, _ => .error ⟨.legalizer, .outOfFuel⟩
  | Nat.succ fuel, anc, p =>
    if isLegalPair tbl p.1 p.2 then .ok [p]
    else if p ∈ anc then .error ⟨.legalizer, .cyclicChain p.1 p.2⟩
    else
      match entryFor tbl p.1 with
      | none => .error ⟨.legalizer, .missingEntry p.1⟩
      | some e =>
        match e.lowering with
        | none => .error ⟨.legalizer, .noStrategy p.1 p.2⟩
        | some st => legalizeMany (legalizeOne tbl fuel) (p :: anc) (succsOf tbl st p)

/-! ### Fuel computed from the table

The chain search from a pair `p` only ever visits pairs whose operation
is the initial operation, one of the distinguished lowering operations,
or an operation mentioned by an expansion, and whose type is built from
the initial type and the widths/types declared by the strategies.  The
length of that finite pair list (plus one) therefore bounds every
acyclic chain, which is how the table's declared chains bound the number
of legalization passes. -/

/-- Widths declared by widening/narrowing strategies in the table. -/
def declaredWidths (tbl : CapTable) : List Nat :=
  tbl.entries.flatMap (fun e =>
    match e.lowering with
    | some (.widen w) => [w]
    | some (.narrow w _) => [w]
    | _ => [])

/-- Types declared by promotion strategies in the table. -/
def declaredTys (tbl : CapTable) : List Ty :=
  tbl.entries.flatMap (fun e =>
    match e.lowering with
    | some (.promote t) => [t]
    | _ => [])

/-- Operations mentioned by expansion strategies in the table. -/
def declaredOps (tbl : CapTable) : List Nat :=
  tbl.entries.flatMap (fun e =>
    match e.lowering with
    | some (.expand ops) => ops
    | _ => [])

/-- The operations a chain from `p` can reach. -/
def opsList (tbl : CapTable) (p : Nat × Option Ty) : List Nat :=
  p.1 :: tbl.extOp :: tbl.truncOp :: tbl.callOp :: declaredOps tbl

/-- The type classes a chain from `p` can reach. -/
def clsList (tbl : CapTable) (p : Nat × Option Ty) : List Nat :=
  (match p.2 with | some ty => [ty.cls] | none => []) ++
    (declaredTys tbl).map (fun t => t.cls)

/-- The widths a chain from `p` can reach. -/
def widthList (tbl : CapTable) (p : Nat × Option Ty) : List Nat :=
  (match p.2 with | some ty => [ty.width] | none => []) ++
    declaredWidths tbl ++ (declaredTys tbl).map (fun t => t.width)

/-- The optional types a chain from `p` can reach. -/
def tysList (tbl : CapTable) (p : Nat × Option Ty) : List (Option Ty) :=
  [none, p.2] ++
    ((widthList tbl p).flatMap (fun w =>
      (clsList tbl p).map (fun c => some ⟨w, c⟩))) ++
    (declaredTys tbl).map some

/-- All pairs a chain from `p` can reach: operations times types. -/
def pairsList (tbl : CapTable) (p : Nat × Option Ty) : List (Nat × Option Ty) :=
  (opsList tbl p).flatMap (fun o => (tysList tbl p).map (fun t => (o, t)))

/-- Fuel sufficient for every chain from `p`: one more than the number of
reachable pairs (which bounds the longest acyclic chain from `p`). -/
def fuelFor (tbl : CapTable) (p : Nat × Option Ty) : Nat :=
  (pairsList tbl p).length + 1

/-! ### Closure of the reachable pair list -/

/-- Pair-list membership splits into operation and type membership. -/
theorem mem_pairsList (tbl : CapTable) (p0 q : Nat × Option Ty) :
    q ∈ pairsList tbl p0 ↔ q.1 ∈ opsList tbl p0 ∧ q.2 ∈ tysList tbl p0 := by
  rcases q with ⟨o, t⟩
  simp only [pairsList, List.mem_flatMap, List.mem_map]
  constructor
  · rintro ⟨o', ho', t', ht', heq⟩
    cases heq
    exact ⟨ho', ht'⟩
  · rintro ⟨ho, ht⟩
    exact ⟨o, ho, t, ht, rfl⟩

/-- Every pair is in its own reachable pair list. -/
theorem self_mem_pairsList (tbl : CapTable) (p : Nat × Option Ty) :
    p ∈ pairsList tbl p := by
  rw [mem_pairsList]
  refine ⟨List.mem_cons_self _ _, ?_⟩
  simp [tysList]

/-- The class of any type in the reachable type list is in the reachable
class list. -/
theorem cls_mem_clsList (tbl : CapTable) (p0 : Nat × Option Ty) (ty : Ty)
    (h : some ty ∈ tysList tbl p0) : ty.cls ∈ clsList tbl p0 := by
  rw [tysList] at h
  rcases List.mem_append.mp h with h01 | hdecl
  · rcases List.mem_append.mp h01 with hinit | hflat
    · rcases List.mem_cons.mp hinit with hbad | hinit2
      · cases hbad
      · rcases List.mem_cons.mp hinit2 with hsnd | hnil
        · simp only [clsList]
          rcases p0 with ⟨o0, t0⟩
          simp only at hsnd
          cases t0 with
          | none => cases hsnd
          | some ty0 =>
            have hty : ty = ty0 := by injection hsnd
            subst hty
            simp
        · cases hnil
    · rw [List.mem_flatMap] at hflat
      rcases hflat with ⟨w, hw, hmem⟩
      rw [List.mem_map] at hmem
      rcases hmem with ⟨c, hc, heq⟩
      have hty : (⟨w, c⟩ : Ty) = ty := by injection heq
      subst hty
      exact hc
  · rw [List.mem_map] at hdecl
    rcases hdecl with ⟨t1, ht1, heq⟩
    have hty : t1 = ty := by injection heq
    subst hty
    simp only [clsList, List.mem_append, List.mem_map]
    exact Or.inr ⟨t1, ht1, rfl⟩

/-- Setting a reachable width on a reachable type stays reachable. -/
theorem setWidth_mem_tysList (tbl : CapTable) (p0 : Nat × Option Ty)
    (t : Option Ty) (w : Nat) (ht : t ∈ tysList tbl p0)
    (hw : w ∈ widthList tbl p0) : setWidth t w ∈ tysList tbl p0 := by
  cases t with
  | none => simp [setWidth, tysList]
  | some ty =>
    have hcls : ty.cls ∈ clsList tbl p0 := cls_mem_clsList tbl p0 ty ht
    simp only [setWidth, Option.map_some, tysList, List.mem_append,
      List.mem_flatMap, List.mem_map]
    exact Or.inl (Or.inr ⟨w, hw, ty.cls, hcls, rfl⟩)

/-- Declared promotion types are reachable. -/
theorem declaredTy_mem_tysList (tbl : CapTable) (p0 : Nat × Option Ty)
    (t : Ty) (h : t ∈ declaredTys tbl) : some t ∈ tysList tbl p0 := by
  simp only [tysList, List.mem_append, List.mem_map]
  exact Or.inr ⟨t, h, rfl⟩

/-- Strategy data of a looked-up entry is declared in the table. -/
theorem entryFor_mem (tbl : CapTable) (op : Nat) (e : CapEntry)
    (h : entryFor tbl op = some e) : e ∈ tbl.entries :=
  List.mem_of_find?_eq_some h

/-- One strategy application starting from a reachable pair stays within
the reachable pair list. -/
theorem succs_closed (tbl : CapTable) (p0 q : Nat × Option Ty)
    (hq : q ∈ pairsList tbl p0) (e : CapEntry) (st : Strategy)
    (hent : entryFor tbl q.1 = some e) (hlow : e.lowering = some st) :
    ∀ q' ∈ succsOf tbl st q, q' ∈ pairsList tbl p0 := by
  intro q' hq'
  have hmem := (mem_pairsList tbl p0 q).mp hq
  have hementry : e ∈ tbl.entries := entryFor_mem tbl q.1 e hent
  rw [mem_pairsList]
  cases st with
  | widen w =>
    have hwid : w ∈ widthList tbl p0 := by
      simp only [widthList, List.mem_append]
      refine Or.inl (Or.inr ?_)
      simp only [declaredWidths, List.mem_flatMap]
      exact ⟨e, hementry, by rw [hlow]; simp⟩
    simp only [succsOf, List.mem_cons, List.mem_singleton] at hq'
    rcases hq' with h | h | h | h
    · subst h
      exact ⟨by simp [opsList], setWidth_mem_tysList tbl p0 q.2 w hmem.2 hwid⟩
    · subst h
      exact ⟨hmem.1, setWidth_mem_tysList tbl p0 q.2 w hmem.2 hwid⟩
    · subst h
      exact ⟨by simp [opsList], hmem.2⟩
    · cases h
  | narrow w parts =>
    have hwid : w ∈ widthList tbl p0 := by
      simp only [widthList, List.mem_append]
      refine Or.inl (Or.inr ?_)
      simp only [declaredWidths, List.mem_flatMap]
      exact ⟨e, hementry, by rw [hlow]; simp⟩
    simp only [succsOf, List.mem_replicate] at hq'
    rw [hq'.2]
    exact ⟨hmem.1, setWidth_mem_tysList tbl p0 q.2 w hmem.2 hwid⟩
  | promote t =>
    have hty : t ∈ declaredTys tbl := by
      simp only [declaredTys, List.mem_flatMap]
      exact ⟨e, hementry, by rw [hlow]; simp⟩
    simp only [succsOf, List.mem_cons, List.mem_singleton] at hq'
    rcases hq' with h | h | h
    · subst h
      exact ⟨hmem.1, declaredTy_mem_tysList tbl p0 t hty⟩
    · subst h
      exact ⟨by simp [opsList], hmem.2⟩
    · cases h
  | expand ops =>
    simp only [succsOf, List.mem_map] at hq'
    rcases hq' with ⟨o, ho, heq⟩
    subst heq
    refine ⟨?_, hmem.2⟩
    simp only [opsList, List.mem_cons]
    refine Or.inr (Or.inr (Or.inr (Or.inr ?_)))
    simp only [declaredOps, List.mem_flatMap]
    exact ⟨e, hementry, by rw [hlow]; exact ho⟩
  | libcall c =>
    simp only [succsOf, List.mem_singleton] at hq'
    subst hq'
    exact ⟨by simp [opsList], hmem.2⟩

/-! ### Bounded termination and cycle detection of the chain search -/

/-- A duplicate-free list contained in another list is no longer than it. -/
theorem nodup_sub_length_le {α : Type} [DecidableEq α] (l s : List α)
    (hnd : l.Nodup) (hsub : ∀ a ∈ l, a ∈ s) : l.length ≤ s.length := by
  calc l.length = l.toFinset.card := (List.toFinset_card_of_nodup hnd).symm
    _ ≤ s.toFinset.card := by
        apply Finset.card_le_card
        intro a ha
        rw [List.mem_toFinset] at ha
        rw [List.mem_toFinset]
        exact hsub a ha
    _ ≤ s.length := List.toFinset_card_le s

/-- The ancestors kept by the chain search all rewrite (in one or more
steps) to the pair currently under examination. -/
def AncOK (tbl : CapTable) (anc : List (Nat × Option Ty))
    (p : Nat × Option Ty) : Prop :=
  ∀ a ∈ anc, Relation.TransGen (stepRel tbl) a p

/-- An illegal pair with a declared strategy steps to each successor. -/
theorem stepRel_of_branch (tbl : CapTable) (p q : Nat × Option Ty)
    (hleg : isLegalPair tbl p.1 p.2 = false) (e : CapEntry) (st : Strategy)
    (hent : entryFor tbl p.1 = some e) (hlow : e.lowering = some st)
    (hq : q ∈ succsOf tbl st p) : stepRel tbl p q :=
  ⟨hleg, e, hent, st, hlow, hq⟩

/-- Pushing the current pair onto the ancestors preserves the ancestor
invariant for each successor. -/
theorem ancOK_push (tbl : CapTable) (anc : List (Nat × Option Ty))
    (p q : Nat × Option Ty) (hanc : AncOK tbl anc p) (hstep : stepRel tbl p q) :
    ∀ a ∈ p :: anc, Relation.TransGen (stepRel tbl) a q := by
  intro a ha
  rcases List.mem_cons.mp ha with rfl | hmem
  · exact Relation.TransGen.single hstep
  · exact Relation.TransGen.tail (hanc a hmem) hstep

/-- With fuel exceeding the reachable pair count (minus the ancestors
already visited), the list chain search never exhausts its fuel, assuming
the single-pair search at the same fuel does not. -/
theorem legalizeMany_no_fuel (tbl : CapTable) (p0 : Nat × Option Ty) (fuel : Nat)
    (hone : ∀ anc p, p ∈ pairsList tbl p0 → anc.Nodup →
      (∀ a ∈ anc, a ∈ pairsList tbl p0) →
      (pairsList tbl p0).length + 1 ≤ fuel + anc.length →
      legalizeOne tbl fuel anc p ≠ .error ⟨.legalizer, .outOfFuel⟩) :
    ∀ qs anc, (∀ q ∈ qs, q ∈ pairsList tbl p0) → anc.Nodup →
      (∀ a ∈ anc, a ∈ pairsList tbl p0) →
      (pairsList tbl p0).length + 1 ≤ fuel + anc.length →
      legalizeMany (legalizeOne tbl fuel) anc qs ≠ .error ⟨.legalizer, .outOfFuel⟩ := by
  intro qs
  induction qs with
  | nil => intro anc _ _ _ _ h; simp only [legalizeMany] at h; cases h
  | cons q qs ih =>
    intro anc hqs hnd hsub hbound h
    simp only [legalizeMany] at h
    split at h
    · rename_i d hq
      cases h
      exact hone anc q (hqs q (List.mem_cons_self q qs)) hnd hsub hbound hq
    · split at h
      · rename_i d hrec
        cases h
        exact ih anc (fun x hx => hqs x (List.mem_cons_of_mem q hx)) hnd hsub hbound hrec
      · cases h

/-- Bounded termination of the chain search: with fuel exceeding the
reachable pair count, the search never reports fuel exhaustion — the
reachable pairs bound the longest acyclic legalization chain. -/
theorem legalizeOne_no_fuel (tbl : CapTable) (p0 : Nat × Option Ty) :
    ∀ fuel anc p, p ∈ pairsList tbl p0 → anc.Nodup →
      (∀ a ∈ anc, a ∈ pairsList tbl p0) →
      (pairsList tbl p0).length + 1 ≤ fuel + anc.length →
      legalizeOne tbl fuel anc p ≠ .error ⟨.legalizer, .outOfFuel⟩ := by
  intro fuel
  induction fuel with
  | zero =>
    intro anc p _ hnd hsub hbound _
    have hle := nodup_sub_length_le anc (pairsList tbl p0) hnd hsub
    omega
  | succ fuel ih =>
    intro anc p hp hnd hsub hbound h
    simp only [legalizeOne] at h
    split at h
    · cases h
    · rename_i hleg
      split at h
      · simp at h
      · rename_i hpanc
        split at h
        · simp at h
        · rename_i e hent
          split at h
          · simp at h
          · rename_i st hlow
            refine legalizeMany_no_fuel tbl p0 fuel ih (succsOf tbl st p) (p :: anc)
              ?_ ?_ ?_ ?_ h
            · intro q hq
              exact succs_closed tbl p0 p hp e st hent hlow q hq
            · exact List.nodup_cons.mpr ⟨hpanc, hnd⟩
            · intro a ha
              rcases List.mem_cons.mp ha with rfl | hmem
              · exact hp
              · exact hsub a hmem
            · simp only [List.length_cons]
              omega

/-- Cycle-detection soundness for the list chain search. -/
theorem legalizeMany_cyclic_sound (tbl : CapTable) (fuel : Nat)
    (hone : ∀ anc p op t, AncOK tbl anc p →
      legalizeOne tbl fuel anc p = .error ⟨.legalizer, .cyclicChain op t⟩ →
      Relation.TransGen (stepRel tbl) (op, t) (op, t)) :
    ∀ qs anc op t, (∀ q ∈ qs, AncOK tbl anc q) →
      legalizeMany (legalizeOne tbl fuel) anc qs = .error ⟨.legalizer, .cyclicChain op t⟩ →
      Relation.TransGen (stepRel tbl) (op, t) (op, t) := by
  intro qs
  induction qs with
  | nil => intro anc op t _ h; simp only [legalizeMany] at h; cases h
  | cons q qs ih =>
    intro anc op t hanc h
    simp only [legalizeMany] at h
    split at h
    · rename_i d hq
      cases h
      exact hone anc q op t (hanc q (List.mem_cons_self q qs)) hq
    · split at h
      · rename_i d hrec
        cases h
        exact ih anc op t (fun x hx => hanc x (List.mem_cons_of_mem q hx)) hrec
      · cases h

/-- Cycle-detection soundness: whenever the chain search reports a cyclic
legalization chain for a pair, that pair really rewrites to itself — the
reported configuration error is a genuine cycle. -/
theorem legalizeOne_cyclic_sound (tbl : CapTable) :
    ∀ fuel anc p op t, AncOK tbl anc p →
      legalizeOne tbl fuel anc p = .error ⟨.legalizer, .cyclicChain op t⟩ →
      Relation.TransGen (stepRel tbl) (op, t) (op, t) := by
  intro fuel
  induction fuel with
  | zero => intro anc p op t _ h; simp only [legalizeOne] at h; simp at h
  | succ fuel ih =>
    intro anc p op t hanc h
    simp only [legalizeOne] at h
    split at h
    · cases h
    · rename_i hleg1
      split at h
      · rename_i hpanc
        have hop : op = p.1 ∧ t = p.2 := by
          cases h
          exact ⟨rfl, rfl⟩
        rcases hop with ⟨rfl, rfl⟩
        have hself : Relation.TransGen (stepRel tbl) p p := hanc p hpanc
        simpa using hself
      · rename_i hpanc
        split at h
        · simp at h
        · rename_i e hent
          split at h
          · simp at h
          · rename_i st hlow
            have hlegf : isLegalPair tbl p.1 p.2 = false := by
              revert hleg1
              cases isLegalPair tbl p.1 p.2 <;> simp
            refine legalizeMany_cyclic_sound tbl fuel ih (succsOf tbl st p)
              (p :: anc) op t ?_ h
            intro q hq
            exact ancOK_push tbl anc p q hanc
              (stepRel_of_branch tbl p q hlegf e st hent hlow hq)

/-- Completeness of the table over the pairs reachable from `p`: every
reachable illegal pair has an entry with a declared strategy.  This is the
spec's capability-entry invariant (absence of an entry is a configuration
error), restricted to the pairs a chain can visit. -/
def closedForB (tbl : CapTable) (p0 : Nat × Option Ty) : Bool :=
  (pairsList tbl p0).all (fun q =>
    isLegalPair tbl q.1 q.2 ||
      (match entryFor tbl q.1 with
       | some e => e.lowering.isSome
       | none => false))

/-- Under a complete table, success of the list chain search follows from
success of the single-pair search at the same fuel. -/
theorem legalizeMany_closed_ok (tbl : CapTable) (p0 : Nat × Option Ty) (fuel : Nat)
    (hone : ∀ anc p, p ∈ pairsList tbl p0 → anc.Nodup →
      (∀ a ∈ anc, a ∈ pairsList tbl p0) →
      (pairsList tbl p0).length + 1 ≤ fuel + anc.length →
      AncOK tbl anc p → ∃ l, legalizeOne tbl fuel anc p = .ok l) :
    ∀ qs anc, (∀ q ∈ qs, q ∈ pairsList tbl p0) → anc.Nodup →
      (∀ a ∈ anc, a ∈ pairsList tbl p0) →
      (pairsList tbl p0).length + 1 ≤ fuel + anc.length →
      (∀ q ∈ qs, AncOK tbl anc q) →
      ∃ l, legalizeMany (legalizeOne tbl fuel) anc qs = .ok l := by
  intro qs
  induction qs with
  | nil => intro anc _ _ _ _ _; exact ⟨[], by simp only [legalizeMany]⟩
  | cons q qs ih =>
    intro anc hqs hnd hsub hbound hanc
    rcases hone anc q (hqs q (List.mem_cons_self q qs)) hnd hsub hbound
      (hanc q (List.mem_cons_self q qs)) with ⟨l, hl⟩
    rcases ih anc (fun x hx => hqs x (List.mem_cons_of_mem q hx)) hnd hsub hbound
      (fun x hx => hanc x (List.mem_cons_of_mem q hx)) with ⟨ls, hls⟩
    refine ⟨l ++ ls, ?_⟩
    simp only [legalizeMany]
    rw [hl, hls]

/-- Under a complete table with no cyclic chains, the chain search with
table-derived fuel always succeeds. -/
theorem legalizeOne_closed_ok (tbl : CapTable) (p0 : Nat × Option Ty)
    (hclosed : closedForB tbl p0 = true) (hacyc : acyclicTable tbl) :
    ∀ fuel anc p, p ∈ pairsList tbl p0 → anc.Nodup →
      (∀ a ∈ anc, a ∈ pairsList tbl p0) →
      (pairsList tbl p0).length + 1 ≤ fuel + anc.length →
      AncOK tbl anc p → ∃ l, legalizeOne tbl fuel anc p = .ok l := by
  intro fuel
  induction fuel with
  | zero =>
    intro anc p _ hnd hsub hbound _
    have hle := nodup_sub_length_le anc (pairsList tbl p0) hnd hsub
    omega
  | succ fuel ih =>
    intro anc p hp hnd hsub hbound hanc
    by_cases hleg : isLegalPair tbl p.1 p.2 = true
    · refine ⟨[p], ?_⟩
      simp only [legalizeOne]
      rw [if_pos hleg]
    · have hlegf : isLegalPair tbl p.1 p.2 = false := by
        revert hleg
        cases isLegalPair tbl p.1 p.2 <;> simp
      by_cases hpanc : p ∈ anc
      · exact absurd (hanc p hpanc) (hacyc p)
      · have hclosed2 : ∀ q ∈ pairsList tbl p0,
            (isLegalPair tbl q.1 q.2 ||
              (match entryFor tbl q.1 with
               | some e => e.lowering.isSome
               | none => false)) = true := by
          unfold closedForB at hclosed
          exact List.all_eq_true.mp hclosed
        have hcl := hclosed2 p hp
        rw [hlegf] at hcl
        simp only [Bool.false_or] at hcl
        cases hent : entryFor tbl p.1 with
        | none => rw [hent] at hcl; simp at hcl
        | some e =>
          cases hlow : e.lowering with
          | none =>
            rw [hent] at hcl
            simp at hcl
            rw [hlow] at hcl
            simp at hcl
          | some st =>
            have hmany := legalizeMany_closed_ok tbl p0 fuel ih
              (succsOf tbl st p) (p :: anc)
              (fun q hq => succs_closed tbl p0 p hp e st hent hlow q hq)
              (List.nodup_cons.mpr ⟨hpanc, hnd⟩)
              (by
                intro a ha
                rcases List.mem_cons.mp ha with rfl | hmem
                · exact hp
                · exact hsub a hmem)
              (by simp only [List.length_cons]; omega)
              (fun q hq => ancOK_push tbl anc p q hanc
                (stepRel_of_branch tbl p q hlegf e st hent hlow hq))
            rcases hmany with ⟨l, hl⟩
            refine ⟨l, ?_⟩
            simp only [legalizeOne, if_neg hleg, if_neg hpanc, hent, hlow]
            exact hl

/-! ### Rewriting instructions by their legalization chain

The chain of pairs computed for an instruction is materialized as a
sequence of instructions: the first takes the original operands, each
subsequent one consumes the fresh register defined by its predecessor,
and the last defines the original result.  A legal instruction's chain is
the singleton of its own pair, so it is materialized as itself. -/

/-- Materialize a chain of operation/type pairs for an instruction with
result `res`, current fresh-register counter `n` and incoming operand
list `ops`. -/
def matChain (res : Option Nat) : Nat → List Operand → List (Nat × Option Ty) →
    List Instr × Nat
  | n, _, [] => ([], n)
  | n, ops, [(o, t)] => ([⟨o, ops, res, t⟩], n)
  | n, ops, (o, t) :: q :: qs =>
    let done := matChain res (n + 1) [Operand.vreg n t] (q :: qs)
    (⟨o, ops, some n, t⟩ :: done.1, done.2)

/-- Legalize one instruction: compute its chain (with fuel derived from
the table) and materialize it, threading the fresh-register counter. -/
def legalizeInstr (tbl : CapTable) (n : Nat) (i : Instr) :
    Except Diag (List Instr × Nat) :=
  match legalizeOne tbl (fuelFor tbl (i.op, i.resTy)) [] (i.op, i.resTy) with
  | .error d => .error d
  | .ok ps => .ok (matChain i.res n i.operands ps)

/-- Legalize every instruction of a block in order. -/
def legalizeBlock (tbl : CapTable) : Nat → List Instr →
    Except Diag (List Instr × Nat)
  | n, [] => .ok ([], n)
  | n, i :: rest =>
    match legalizeInstr tbl n i with
    | .error d => .error d
    | .ok (s, n') =>
      match legalizeBlock tbl n' rest with
      | .error d => .error d
      | .ok (rest', n'') => .ok (s ++ rest', n'')

/-- Legalize every block of a function in order. -/
def legalizeBlocks (tbl : CapTable) : Nat → List (List Instr) →
    Except Diag (List (List Instr) × Nat)
  | n, [] => .ok ([], n)
  | n, b :: bs =>
    match legalizeBlock tbl n b with
    | .error d => .error d
    | .ok (b', n') =>
      match legalizeBlocks tbl n' bs with
      | .error d => .error d
      | .ok (bs', n'') => .ok (b' :: bs', n'')

/-- Modelled from the spec: the Legalizer stage — rewrite the whole
Function Unit until every operation/type pair is legal, or fail with a
configuration-defect diagnostic. -/
def legalizeFU (tbl : CapTable) (F : FunctionUnit) : Except Diag FunctionUnit :=
  match legalizeBlocks tbl F.nextReg F.blocks with
  | .error d => .error d
  | .ok (bs, n) => .ok { F with blocks := bs, nextReg := n }

/-- All instructions of a Function Unit, in block order. -/
def instrsOf (F : FunctionUnit) : List Instr :=
  F.blocks.flatten

/-- Every operation/type pair of the Function Unit is legal. -/
def allLegal (tbl : CapTable) (F : FunctionUnit) : Prop :=
  ∀ i ∈ instrsOf F, isLegalPair tbl i.op i.resTy = true

/-! ### Termination properties lifted to instructions, blocks, functions -/

/-- The empty ancestor list satisfies the ancestor invariant. -/
theorem ancOK_nil (tbl : CapTable) (p : Nat × Option Ty) : AncOK tbl [] p :=
  fun a ha => absurd ha (List.not_mem_nil a)

/-- Per-instruction legalization never exhausts its table-derived fuel. -/
theorem legalizeInstr_no_fuel (tbl : CapTable) (n : Nat) (i : Instr) :
    legalizeInstr tbl n i ≠ .error ⟨.legalizer, .outOfFuel⟩ := by
  intro h
  simp only [legalizeInstr] at h
  split at h
  · rename_i d hch
    cases h
    refine legalizeOne_no_fuel tbl (i.op, i.resTy) (fuelFor tbl (i.op, i.resTy)) []
      (i.op, i.resTy) (self_mem_pairsList tbl (i.op, i.resTy)) List.nodup_nil
      (by intro a ha; cases ha) (by simp [fuelFor]) hch
  · cases h

/-- A cyclic-chain diagnostic from per-instruction legalization reports a
genuine cycle. -/
theorem legalizeInstr_cyclic_sound (tbl : CapTable) (n : Nat) (i : Instr)
    (op : Nat) (t : Option Ty)
    (h : legalizeInstr tbl n i = .error ⟨.legalizer, .cyclicChain op t⟩) :
    Relation.TransGen (stepRel tbl) (op, t) (op, t) := by
  simp only [legalizeInstr] at h
  split at h
  · rename_i d hch
    cases h
    exact legalizeOne_cyclic_sound tbl _ [] (i.op, i.resTy) op t
      (ancOK_nil tbl (i.op, i.resTy)) hch
  · cases h

/-- Under a complete table with no cyclic chains, per-instruction
legalization succeeds. -/
theorem legalizeInstr_closed_ok (tbl : CapTable) (n : Nat) (i : Instr)
    (hcl : closedForB tbl (i.op, i.resTy) = true) (hacyc : acyclicTable tbl) :
    ∃ sn, legalizeInstr tbl n i = .ok sn := by
  rcases legalizeOne_closed_ok tbl (i.op, i.resTy) hcl hacyc
      (fuelFor tbl (i.op, i.resTy)) [] (i.op, i.resTy)
      (self_mem_pairsList tbl (i.op, i.resTy)) List.nodup_nil
      (by intro a ha; cases ha) (by simp [fuelFor])
      (ancOK_nil tbl (i.op, i.resTy)) with ⟨l, hl⟩
  refine ⟨matChain i.res n i.operands l, ?_⟩
  simp only [legalizeInstr, hl]

/-- Block legalization never exhausts its fuel. -/
theorem legalizeBlock_no_fuel (tbl : CapTable) :
    ∀ b n, legalizeBlock tbl n b ≠ .error ⟨.legalizer, .outOfFuel⟩ := by
  intro b
  induction b with
  | nil => intro n h; simp only [legalizeBlock] at h; cases h
  | cons i rest ih =>
    intro n h
    simp only [legalizeBlock] at h
    split at h
    · rename_i d hi
      cases h
      exact legalizeInstr_no_fuel tbl n i hi
    · rename_i s n1 hi
      split at h
      · rename_i d hr
        cases h
        exact ih n1 hr
      · cases h

/-- A cyclic-chain diagnostic from block legalization reports a genuine
cycle. -/
theorem legalizeBlock_cyclic_sound (tbl : CapTable) :
    ∀ b n op t, legalizeBlock tbl n b = .error ⟨.legalizer, .cyclicChain op t⟩ →
      Relation.TransGen (stepRel tbl) (op, t) (op, t) := by
  intro b
  induction b with
  | nil => intro n op t h; simp only [legalizeBlock] at h; cases h
  | cons i rest ih =>
    intro n op t h
    simp only [legalizeBlock] at h
    split at h
    · rename_i d hi
      cases h
      exact legalizeInstr_cyclic_sound tbl n i op t hi
    · rename_i s n1 hi
      split at h
      · rename_i d hr
        cases h
        exact ih n1 op t hr
      · cases h

/-- Under a complete table with no cyclic chains, block legalization
succeeds. -/
theorem legalizeBlock_closed_ok (tbl : CapTable) (hacyc : acyclicTable tbl) :
    ∀ b n, (∀ i ∈ b, closedForB tbl (i.op, i.resTy) = true) →
      ∃ bn, legalizeBlock tbl n b = .ok bn := by
  intro b
  induction b with
  | nil => intro n _; exact ⟨([], n), by simp only [legalizeBlock]⟩
  | cons i rest ih =>
    intro n hall
    rcases legalizeInstr_closed_ok tbl n i (hall i (List.mem_cons_self i rest))
      hacyc with ⟨sn, hsn⟩
    rcases ih sn.2 (fun j hj => hall j (List.mem_cons_of_mem i hj)) with ⟨bn, hbn⟩
    refine ⟨(sn.1 ++ bn.1, bn.2), ?_⟩
    simp only [legalizeBlock, hsn, hbn]

/-- Function legalization never exhausts its fuel. -/
theorem legalizeBlocks_no_fuel (tbl : CapTable) :
    ∀ bs n, legalizeBlocks tbl n bs ≠ .error ⟨.legalizer, .outOfFuel⟩ := by
  intro bs
  induction bs with
  | nil => intro n h; simp only [legalizeBlocks] at h; cases h
  | cons b rest ih =>
    intro n h
    simp only [legalizeBlocks] at h
    split at h
    · rename_i d hb
      cases h
      exact legalizeBlock_no_fuel tbl b n hb
    · rename_i b1 n1 hb
      split at h
      · rename_i d hr
        cases h
        exact ih n1 hr
      · cases h

/-- A cyclic-chain diagnostic from function legalization reports a
genuine cycle. -/
theorem legalizeBlocks_cyclic_sound (tbl : CapTable) :
    ∀ bs n op t, legalizeBlocks tbl n bs = .error ⟨.legalizer, .cyclicChain op t⟩ →
      Relation.TransGen (stepRel tbl) (op, t) (op, t) := by
  intro bs
  induction bs with
  | nil => intro n op t h; simp only [legalizeBlocks] at h; cases h
  | cons b rest ih =>
    intro n op t h
    simp only [legalizeBlocks] at h
    split at h
    · rename_i d hb
      cases h
      exact legalizeBlock_cyclic_sound tbl b n op t hb
    · rename_i b1 n1 hb
      split at h
      · rename_i d hr
        cases h
        exact ih n1 op t hr
      · cases h

/-- Under a complete table with no cyclic chains, legalization of all
blocks succeeds. -/
theorem legalizeBlocks_closed_ok (tbl : CapTable) (hacyc : acyclicTable tbl) :
    ∀ bs n, (∀ b ∈ bs, ∀ i ∈ b, closedForB tbl (i.op, i.resTy) = true) →
      ∃ bn, legalizeBlocks tbl n bs = .ok bn := by
  intro bs
  induction bs with
  | nil => intro n _; exact ⟨([], n), by simp only [legalizeBlocks]⟩
  | cons b rest ih =>
    intro n hall
    rcases legalizeBlock_closed_ok tbl hacyc b n
      (hall b (List.mem_cons_self b rest)) with ⟨bn, hbn⟩
    rcases ih bn.2 (fun b' hb' => hall b' (List.mem_cons_of_mem b hb')) with ⟨rn, hrn⟩
    refine ⟨(bn.1 :: rn.1, rn.2), ?_⟩
    simp only [legalizeBlocks, hbn, hrn]

/-! ### Partial correctness of the chain search -/

/-- If every successful single-pair legalization at some fuel yields only
legal pairs, so does every successful list legalization at that fuel. -/
theorem legalizeMany_ok_legal (tbl : CapTable) (fuel : Nat)
    (h1 : ∀ anc p l, legalizeOne tbl fuel anc p = .ok l →
      ∀ q ∈ l, isLegalPair tbl q.1 q.2 = true) :
    ∀ qs anc l, legalizeMany (legalizeOne tbl fuel) anc qs = .ok l →
      ∀ q ∈ l, isLegalPair tbl q.1 q.2 = true := by
  intro qs
  induction qs with
  | nil =>
    intro anc l h q hq
    simp only [legalizeMany] at h
    cases h
    simp at hq
  | cons x xs ih =>
    intro anc l h q hq
    simp only [legalizeMany] at h
    cases h1x : legalizeOne tbl fuel anc x with
    | error d => rw [h1x] at h; cases h
    | ok lx =>
      rw [h1x] at h
      cases hmany : legalizeMany (legalizeOne tbl fuel) anc xs with
      | error d => rw [hmany] at h; cases h
      | ok ls =>
        rw [hmany] at h
        cases h
        rcases List.mem_append.mp hq with hmem | hmem
        · exact h1 anc x lx h1x q hmem
        · exact ih anc ls hmany q hmem

/-- Every pair in a successful chain-search result is legal: the search
only stops at legal pairs, so success means the fixed point was reached. -/
theorem legalizeOne_ok_legal (tbl : CapTable) :
    ∀ fuel anc p l, legalizeOne tbl fuel anc p = .ok l →
      ∀ q ∈ l, isLegalPair tbl q.1 q.2 = true := by
  intro fuel
  induction fuel with
  | zero => intro anc p l h; simp only [legalizeOne] at h; cases h
  | succ fuel ih =>
    intro anc p l h q hq
    simp only [legalizeOne] at h
    split at h
    · rename_i hleg
      cases h
      simp only [List.mem_singleton] at hq
      subst hq
      exact hleg
    · split at h
      · cases h
      · split at h
        · cases h
        · rename_i e hent
          split at h
          · cases h
          · exact legalizeMany_ok_legal tbl fuel ih _ _ _ h q hq

/-- Materialized instructions carry exactly the chain's pairs as their
operation/result-type pairs. -/
theorem matChain_pairs (res : Option Nat) :
    ∀ ps n ops, ((matChain res n ops ps).1).map (fun i => (i.op, i.resTy)) = ps := by
  intro ps
  induction ps with
  | nil => intro n ops; simp [matChain]
  | cons x rest ih =>
    intro n ops
    rcases x with ⟨o, t⟩
    cases rest with
    | nil => simp [matChain]
    | cons y qs => simpa [matChain] using ih (n + 1) [Operand.vreg n t]

/-- A successful per-instruction legalization emits only instructions
whose operation/type pairs are legal. -/
theorem legalizeInstr_ok_legal (tbl : CapTable) (n : Nat) (i : Instr)
    (sn : List Instr × Nat) (h : legalizeInstr tbl n i = .ok sn) :
    ∀ j ∈ sn.1, isLegalPair tbl j.op j.resTy = true := by
  intro j hj
  simp only [legalizeInstr] at h
  split at h
  · cases h
  · rename_i ps hch
    cases h
    have hqmem : (j.op, j.resTy) ∈ ps := by
      rw [← matChain_pairs i.res ps n i.operands]
      exact List.mem_map_of_mem _ hj
    exact legalizeOne_ok_legal tbl _ _ _ _ hch (j.op, j.resTy) hqmem

/-- A successful block legalization emits only legal instructions. -/
theorem legalizeBlock_ok_legal (tbl : CapTable) :
    ∀ b n bn, legalizeBlock tbl n b = .ok bn →
      ∀ j ∈ bn.1, isLegalPair tbl j.op j.resTy = true := by
  intro b
  induction b with
  | nil => intro n bn h j hj; simp only [legalizeBlock] at h; cases h; simp at hj
  | cons i rest ih =>
    intro n bn h j hj
    simp only [legalizeBlock] at h
    split at h
    · cases h
    · rename_i s n1 hi
      split at h
      · cases h
      · rename_i rest' n2 hr
        cases h
        rcases List.mem_append.mp hj with hmem | hmem
        · exact legalizeInstr_ok_legal tbl n i (s, n1) hi j hmem
        · exact ih n1 (rest', n2) hr j hmem

/-- A successful function legalization emits only legal blocks. -/
theorem legalizeBlocks_ok_legal (tbl : CapTable) :
    ∀ bs n bn, legalizeBlocks tbl n bs = .ok bn →
      ∀ b ∈ bn.1, ∀ j ∈ b, isLegalPair tbl j.op j.resTy = true := by
  intro bs
  induction bs with
  | nil => intro n bn h b hb; simp only [legalizeBlocks] at h; cases h; simp at hb
  | cons b0 rest ih =>
    intro n bn h b hb j hj
    simp only [legalizeBlocks] at h
    split at h
    · cases h
    · rename_i b1 n1 hb0
      split at h
      · cases h
      · rename_i bs1 n2 hr
        cases h
        rcases List.mem_cons.mp hb with hmem | hmem
        · subst hmem
          exact legalizeBlock_ok_legal tbl b0 n (b, n1) hb0 j hj
        · exact ih n1 (bs1, n2) hr b hmem j hj

/-- The Legalizer's output is at its fixed point: every operation/type
pair of a successfully legalized Function Unit is legal. -/
theorem legalizeFU_ok_allLegal (tbl : CapTable) (F F' : FunctionUnit)
    (h : legalizeFU tbl F = .ok F') : allLegal tbl F' := by
  intro j hj
  simp only [legalizeFU] at h
  split at h
  · cases h
  · rename_i bs1 n1 hbs
    cases h
    simp only [instrsOf, List.mem_flatten] at hj
    rcases hj with ⟨b, hb, hjb⟩
    exact legalizeBlocks_ok_legal tbl F.blocks F.nextReg (bs1, n1) hbs b hb j hjb

/-- Claim C2: the Legalizer terminates.  Under a table that is complete
over the reachable pairs and has no cyclic legalization chain, the
Legalizer reaches, within the fuel bound derived from the table (which
bounds the longest declared chain), a fixed point at which every
remaining operation/type pair is legal; any reported cyclic-chain
diagnostic names a pair that genuinely rewrites to itself (cycles are
detected and reported, never looped on); and the fuel bound is never
exhausted, for any table and any Function Unit. -/
theorem legalizer_terminates (tbl : CapTable) (F : FunctionUnit) :
    ((∀ i ∈ instrsOf F, closedForB tbl (i.op, i.resTy) = true) →
      acyclicTable tbl →
      ∃ F', legalizeFU tbl F = .ok F' ∧ allLegal tbl F') ∧
    (∀ op t, legalizeFU tbl F = .error ⟨.legalizer, .cyclicChain op t⟩ →
      Relation.TransGen (stepRel tbl) (op, t) (op, t)) ∧
    legalizeFU tbl F ≠ .error ⟨.legalizer, .outOfFuel⟩ := by
  refine ⟨?_, ?_, ?_⟩
  · intro hclosed hacyc
    have hall : ∀ b ∈ F.blocks, ∀ i ∈ b, closedForB tbl (i.op, i.resTy) = true := by
      intro b hb i hi
      exact hclosed i (by
        simp only [instrsOf, List.mem_flatten]
        exact ⟨b, hb, hi⟩)
    rcases legalizeBlocks_closed_ok tbl hacyc F.blocks F.nextReg hall with ⟨bn, hbn⟩
    refine ⟨{ F with blocks := bn.1, nextReg := bn.2 }, ?_, ?_⟩
    · simp only [legalizeFU, hbn]
    · exact legalizeFU_ok_allLegal tbl F _ (by simp only [legalizeFU, hbn])
  · intro op t h
    simp only [legalizeFU] at h
    split at h
    · rename_i d hb
      cases h
      exact legalizeBlocks_cyclic_sound tbl F.blocks F.nextReg op t hb
    · cases h
  · intro h
    simp only [legalizeFU] at h
    split at h
    · rename_i d hb
      cases h
      exact legalizeBlocks_no_fuel tbl F.blocks F.nextReg hb
    · cases h

/-! ### Legal instructions are left unchanged -/

/-- The chain of a legal pair is the singleton of that pair. -/
theorem legalizeOne_legal_id (tbl : CapTable) (fuel : Nat)
    (anc : List (Nat × Option Ty)) (p : Nat × Option Ty)
    (hleg : isLegalPair tbl p.1 p.2 = true) :
    legalizeOne tbl (fuel + 1) anc p = .ok [p] := by
  simp only [legalizeOne]
  rw [if_pos hleg]

/-- A legal instruction is materialized as itself, with the counter
unchanged. -/
theorem legalizeInstr_legal_id (tbl : CapTable) (n : Nat) (i : Instr)
    (hleg : isLegalPair tbl i.op i.resTy = true) :
    legalizeInstr tbl n i = .ok ([i], n) := by
  simp only [legalizeInstr, fuelFor]
  rw [legalizeOne_legal_id tbl _ [] (i.op, i.resTy) hleg]
  simp [matChain]

/-- A block of legal instructions is legalized to itself. -/
theorem legalizeBlock_legal_id (tbl : CapTable) :
    ∀ b n, (∀ j ∈ b, isLegalPair tbl j.op j.resTy = true) →
      legalizeBlock tbl n b = .ok (b, n) := by
  intro b
  induction b with
  | nil => intro n _; simp [legalizeBlock]
  | cons i rest ih =>
    intro n hall
    simp only [legalizeBlock]
    rw [legalizeInstr_legal_id tbl n i (hall i (List.mem_cons_self i rest))]
    dsimp only
    rw [ih n (fun j hj => hall j (List.mem_cons_of_mem i hj))]
    rfl

/-- A function of legal blocks is legalized to itself. -/
theorem legalizeBlocks_legal_id (tbl : CapTable) :
    ∀ bs n, (∀ b ∈ bs, ∀ j ∈ b, isLegalPair tbl j.op j.resTy = true) →
      legalizeBlocks tbl n bs = .ok (bs, n) := by
  intro bs
  induction bs with
  | nil => intro n _; simp [legalizeBlocks]
  | cons b rest ih =>
    intro n hall
    simp only [legalizeBlocks]
    rw [legalizeBlock_legal_id tbl b n (hall b (List.mem_cons_self b rest))]
    dsimp only
    rw [ih n (fun b' hb' => hall b' (List.mem_cons_of_mem b hb'))]

/-- A fully legal Function Unit is a fixed point of the Legalizer. -/
theorem legalizeFU_legal_id (tbl : CapTable) (F : FunctionUnit)
    (hall : allLegal tbl F) : legalizeFU tbl F = .ok F := by
  simp only [legalizeFU]
  rw [legalizeBlocks_legal_id tbl F.blocks F.nextReg]
  · intro b hb j hj
    exact hall j (by simp only [instrsOf, List.mem_flatten]; exact ⟨b, hb, hj⟩)

/-- Claim C3: legalization is idempotent — a Function Unit that is the
Legalizer's own output is fully legal, so running the Legalizer on it
again succeeds and leaves it unchanged. -/
theorem legalizer_idempotent (tbl : CapTable) (F F' : FunctionUnit)
    (h : legalizeFU tbl F = .ok F') : legalizeFU tbl F' = .ok F' :=
  legalizeFU_legal_id tbl F' (legalizeFU_ok_allLegal tbl F F' h)

/-! ## IR Translator (modelled from the spec, section 4.1)

The input function is a verified control-flow graph of generic
instructions with typed values, represented in the same container as the
machine IR; translation maps it one-to-one into the machine container
after checking that every operation has a capability entry — an input
construct with no generic lowering defined (no capability-table entry at
all) fails the whole function immediately with a diagnostic naming the
missing operation. -/

/-- The first operation in the list with no capability entry at all. -/
def firstMissing (tbl : CapTable) (l : List Instr) : Option Nat :=
  (l.find? (fun i => (entryFor tbl i.op).isNone)).map (fun i => i.op)

/-- Modelled from the spec: the IR Translator stage. -/
def irTranslate (tbl : CapTable) (F : FunctionUnit) : Except Diag FunctionUnit :=
  match firstMissing tbl (instrsOf F) with
  | some op => .error ⟨.irTranslator, .missingEntry op⟩
  | none => .ok F

/-! ## Register Bank Selector (modelled from the spec, section 4.3)

Every virtual register is assigned the bank the table allows for its
defining operation at its result type; for each use whose required bank
(the bank the consuming operation's entry allows for the operand's type)
differs from the assigned bank, an explicit cross-bank copy to a fresh
register in the required bank is inserted before the use, and the use is
rerouted through the fresh register — bits are never silently
reinterpreted across banks. -/

/-- Look up the bank assigned to a virtual register. -/
def lookupB (m : List (Nat × Nat)) (r : Nat) : Option Nat :=
  (m.find? (fun rb => rb.1 == r)).map (fun rb => rb.2)

/-- Bank assignment for defined registers: each value-producing
instruction's result gets the bank its operation's entry allows for its
result type. -/
def defBanks (tbl : CapTable) : List Instr → List (Nat × Nat)
  | [] => []
  | i :: l =>
    (match i.res, bankFor tbl i.op i.resTy with
     | some r, some b => [(r, b)]
     | _, _ => []) ++ defBanks tbl l

/-- Result of rewriting one instruction's operand list: the cross-bank
copies to insert before the instruction, the rewritten operands, the next
fresh register, and the bank assignments of the fresh copy results. -/
structure RbsOut where
  copies : List Instr
  ops : List Operand
  next : Nat
  fresh : List (Nat × Nat)

/-- Rewrite the operand list of an instruction with operation `iop`:
a register operand whose required bank differs from its assigned bank is
rerouted through a fresh cross-bank copy. -/
def rbsOps (tbl : CapTable) (bmap : List (Nat × Nat)) (iop : Nat) :
    Nat → List Operand → RbsOut
  | n, [] => ⟨[], [], n, []⟩
  | n, o :: os =>
    match o with
    | .vreg r ty =>
      match bankFor tbl iop ty, lookupB bmap r with
      | some b, some b2 =>
        if b = b2 then
          let rest := rbsOps tbl bmap iop n os
          ⟨rest.copies, o :: rest.ops, rest.next, rest.fresh⟩
        else
          let rest := rbsOps tbl bmap iop (n + 1) os
          ⟨⟨tbl.copyOp, [Operand.vreg r ty], some n, ty⟩ :: rest.copies,
            Operand.vreg n ty :: rest.ops, rest.next, (n, b) :: rest.fresh⟩
      | _, _ =>
        let rest := rbsOps tbl bmap iop n os
        ⟨rest.copies, o :: rest.ops, rest.next, rest.fresh⟩
    | _ =>
      let rest := rbsOps tbl bmap iop n os
      ⟨rest.copies, o :: rest.ops, rest.next, rest.fresh⟩

/-- Rewrite one instruction: emit its cross-bank copies, then the
instruction with rerouted operands. -/
def rbsInstr (tbl : CapTable) (bmap : List (Nat × Nat)) (n : Nat) (i : Instr) :
    List Instr × Nat × List (Nat × Nat) :=
  let out := rbsOps tbl bmap i.op n i.operands
  (out.copies ++ [⟨i.op, out.ops, i.res, i.resTy⟩], out.next, out.fresh)

/-- Rewrite a block, threading the fresh-register counter. -/
def rbsBlock (tbl : CapTable) (bmap : List (Nat × Nat)) :
    Nat → List Instr → List Instr × Nat × List (Nat × Nat)
  | n, [] => ([], n, [])
  | n, i :: rest =>
    let oi := rbsInstr tbl bmap n i
    let orest := rbsBlock tbl bmap oi.2.1 rest
    (oi.1 ++ orest.1, orest.2.1, oi.2.2 ++ orest.2.2)

/-- Rewrite all blocks. -/
def rbsBlocks (tbl : CapTable) (bmap : List (Nat × Nat)) :
    Nat → List (List Instr) → List (List Instr) × Nat × List (Nat × Nat)
  | n, [] => ([], n, [])
  | n, b :: bs =>
    let ob := rbsBlock tbl bmap n b
    let obs := rbsBlocks tbl bmap ob.2.1 bs
    (ob.1 :: obs.1, obs.2.1, ob.2.2 ++ obs.2.2)

/-- Modelled from the spec: the Register Bank Selector stage — assign
every virtual register a bank and resolve bank conflicts at uses by
inserting explicit cross-bank copies. -/
def regBankSelect (tbl : CapTable) (F : FunctionUnit) : FunctionUnit :=
  let bmap := defBanks tbl (instrsOf F)
  let out := rbsBlocks tbl bmap F.nextReg F.blocks
  ⟨out.1, out.2.2 ++ bmap, out.2.1⟩

/-! ## Instruction Selector (modelled from the spec, section 4.4)

Patterns for an instruction are tried in a fixed priority order (lower
priority number = more specific, tried first); a pattern matches when its
root operation equals the instruction's operation and the instruction's
result (type, bank) lies in the pattern's required set.  On a match the
instruction is replaced by the pattern's concrete template; if no pattern
matches, the function fails with a diagnostic naming the unmatched
operation and its type and bank. -/

/-- Does a pattern match an instruction (under a bank assignment)? -/
def matchesPat (bmap : List (Nat × Nat)) (pat : Pattern) (i : Instr) : Bool :=
  pat.rootOp == i.op &&
    (match i.resTy, i.res with
     | some t, some r =>
       match lookupB bmap r with
       | some b => decide ((t, b) ∈ pat.req)
       | none => false
     | _, _ => true)

/-- Of two patterns, the higher-priority one (the one with the smaller
priority number; the left one on a tie). -/
def better (p q : Pattern) : Pattern :=
  if p.prio ≤ q.prio then p else q

/-- The highest-priority pattern matching an instruction, if any. -/
def bestPat (bmap : List (Nat × Nat)) (i : Instr) : List Pattern → Option Pattern
  | [] => none
  | p :: ps =>
    match bestPat bmap i ps with
    | none => if matchesPat bmap p i then some p else none
    | some q => if matchesPat bmap p i then some (better p q) else some q

/-- Select one instruction: replace it by the best matching pattern's
template, or fail naming the unmatched operation, type and bank. -/
def selectInstr (tbl : CapTable) (bmap : List (Nat × Nat)) (i : Instr) :
    Except Diag Instr :=
  match bestPat bmap i tbl.patterns with
  | none => .error ⟨.instructionSelect, .noPattern i.op i.resTy (i.res.bind (lookupB bmap))⟩
  | some pat => .ok ⟨pat.template, i.operands, i.res, i.resTy⟩

/-- Select every instruction of a block. -/
def selectBlock (tbl : CapTable) (bmap : List (Nat × Nat)) :
    List Instr → Except Diag (List Instr)
  | [] => .ok []
  | i :: rest =>
    match selectInstr tbl bmap i with
    | .error d => .error d
    | .ok j =>
      match selectBlock tbl bmap rest with
      | .error d => .error d
      | .ok rest' => .ok (j :: rest')

/-- Select every block. -/
def selectBlocks (tbl : CapTable) (bmap : List (Nat × Nat)) :
    List (List Instr) → Except Diag (List (List Instr))
  | [] => .ok []
  | b :: bs =>
    match selectBlock tbl bmap b with
    | .error d => .error d
    | .ok b' =>
      match selectBlocks tbl bmap bs with
      | .error d => .error d
      | .ok bs' => .ok (b' :: bs')

/-- Modelled from the spec: the Instruction Selector stage. -/
def selectFU (tbl : CapTable) (F : FunctionUnit) : Except Diag FunctionUnit :=
  match selectBlocks tbl F.vregBank F.blocks with
  | .error d => .error d
  | .ok bs => .ok { F with blocks := bs }

/-! ## Pipeline Configurator (modelled from the spec, section 4.5)

The configurator exposes the ordered list of the four core stages with
two extension points per stage: a target may replace a stage's
implementation and may insert auxiliary passes before or after it.  The
Register Bank Selector may be skipped only when the Capability Table
declares exactly one bank for every type. -/

/-- Modelled from the spec: the per-target extension points — for each
core stage, an optional replacement implementation and auxiliary passes
to insert before/after it, plus the target's request to skip the
Register Bank Selector. -/
structure Hooks where
  replace : CoreStage → Option (CapTable → FunctionUnit → Except Diag FunctionUnit)
  insertBefore : CoreStage → List (FunctionUnit → FunctionUnit)
  insertAfter : CoreStage → List (FunctionUnit → FunctionUnit)
  skipRegBank : Bool

/-- A pass of the configured pipeline: a core stage with its (possibly
replaced) implementation, or an auxiliary target pass. -/
inductive PassDesc where
  | core (s : CoreStage) (impl : CapTable → FunctionUnit → Except Diag FunctionUnit)
  | aux (f : FunctionUnit → FunctionUnit)

/-- The default implementation of each core stage. -/
def defaultImpl : CoreStage → CapTable → FunctionUnit → Except Diag FunctionUnit
  | .irTranslator => irTranslate
  | .legalizer => legalizeFU
  | .regBankSelect => fun tbl F => .ok (regBankSelect tbl F)
  | .instructionSelect => selectFU

/-- Modelled from the spec: the table declares exactly one bank for every
type — any two legal combinations for the same type agree on the bank. -/
def singleBankPerType (tbl : CapTable) : Bool :=
  tbl.entries.all (fun e => e.legal.all (fun tb =>
    tbl.entries.all (fun e2 => e2.legal.all (fun tb2 =>
      tb.1 != tb2.1 || tb.2 == tb2.2))))

/-- The fixed order of the four core stages. -/
def coreOrder : List CoreStage :=
  [.irTranslator, .legalizer, .regBankSelect, .instructionSelect]

/-- Whether a core stage is included: the Register Bank Selector may be
dropped only when the target asks for it and the table declares a single
bank per type; the other stages always run. -/
def includeStage (hooks : Hooks) (tbl : CapTable) : CoreStage → Bool
  | .regBankSelect => !(hooks.skipRegBank && singleBankPerType tbl)
  | _ => true

/-- The passes contributed by one core stage: inserted passes before, the
stage itself (replaced if the target supplied an implementation),
inserted passes after. -/
def stagePasses (hooks : Hooks) (s : CoreStage) : List PassDesc :=
  (hooks.insertBefore s).map PassDesc.aux ++
    [PassDesc.core s ((hooks.replace s).getD (defaultImpl s))] ++
    (hooks.insertAfter s).map PassDesc.aux

/-- Modelled from the spec: the configured pipeline — the included core
stages in their fixed order, each with its extension-point passes. -/
def buildPipeline (hooks : Hooks) (tbl : CapTable) : List PassDesc :=
  (coreOrder.filter (includeStage hooks tbl)).flatMap (stagePasses hooks)

/-- Run one pass. -/
def runPass (tbl : CapTable) (F : FunctionUnit) : PassDesc → Except Diag FunctionUnit
  | .core _ impl => impl tbl F
  | .aux f => .ok (f F)

/-- Run a list of passes in order, stopping at the first failure. -/
def runStages (tbl : CapTable) : List PassDesc → FunctionUnit → Except Diag FunctionUnit
  | [], F => .ok F
  | p :: ps, F =>
    match runPass tbl F p with
    | .error d => .error d
    | .ok F2 => runStages tbl ps F2

/-- Modelled from the spec: run the whole configured pipeline on one
function. -/
def runPipeline (hooks : Hooks) (tbl : CapTable) (F : FunctionUnit) :
    Except Diag FunctionUnit :=
  runStages tbl (buildPipeline hooks tbl) F

/-- A target with no customizations. -/
def defaultHooks : Hooks :=
  ⟨fun _ => none, fun _ => [], fun _ => [], false⟩

/-- The core stages of a pass list, in order. -/
def coreSeq (l : List PassDesc) : List CoreStage :=
  l.filterMap (fun p =>
    match p with
    | .core s _ => some s
    | .aux _ => none)

/-! ### Pipeline order (C1) and extension points (C9) -/

/-- Auxiliary passes contribute no core stage. -/
theorem coreSeq_aux_nil (l : List (FunctionUnit → FunctionUnit)) :
    coreSeq (l.map PassDesc.aux) = [] := by
  induction l with
  | nil => rfl
  | cons f fs ih => simp [coreSeq] at ih ⊢

/-- The core stages of concatenated pass lists concatenate. -/
theorem coreSeq_append (l1 l2 : List PassDesc) :
    coreSeq (l1 ++ l2) = coreSeq l1 ++ coreSeq l2 := by
  simp [coreSeq]

/-- One stage's pass bundle contributes exactly that core stage. -/
theorem coreSeq_stagePasses (hooks : Hooks) (s : CoreStage) :
    coreSeq (stagePasses hooks s) = [s] := by
  simp only [stagePasses, coreSeq_append, coreSeq_aux_nil]
  rfl

/-- The core stages of the assembled pipeline are exactly the included
stage list. -/
theorem coreSeq_flatMap (hooks : Hooks) (l : List CoreStage) :
    coreSeq (l.flatMap (stagePasses hooks)) = l := by
  induction l with
  | nil => rfl
  | cons s rest ih =>
    simp only [List.flatMap_cons, coreSeq_append, coreSeq_stagePasses, ih]
    rfl

/-- Claim C1: the four core stages of every assembled pipeline run in the
fixed order IR Translator, Legalizer, Register Bank Selector,
Instruction Selector (whatever auxiliary passes a target inserts), and
the Register Bank Selector is missing only when the Capability Table
declares exactly one bank for every type. -/
theorem pipeline_core_order (hooks : Hooks) (tbl : CapTable) :
    coreSeq (buildPipeline hooks tbl) =
      [CoreStage.irTranslator, CoreStage.legalizer,
        CoreStage.regBankSelect, CoreStage.instructionSelect] ∨
    (coreSeq (buildPipeline hooks tbl) =
      [CoreStage.irTranslator, CoreStage.legalizer,
        CoreStage.instructionSelect] ∧
      singleBankPerType tbl = true) := by
  simp only [buildPipeline, coreSeq_flatMap]
  cases hskip : hooks.skipRegBank && singleBankPerType tbl with
  | false =>
    left
    simp [coreOrder, List.filter, includeStage, hskip]
  | true =>
    right
    constructor
    · simp [coreOrder, List.filter, includeStage, hskip]
    · have h2 := hskip
      simp only [Bool.and_eq_true] at h2
      exact h2.2

/-- Claim C9: the Pipeline Configurator exposes, for every core stage it
schedules, both extension points — the stage appears in the assembled
pipeline with the target's replacement implementation when one is
supplied (and the default one otherwise), immediately surrounded by the
auxiliary passes the target inserted before and after it. -/
theorem configurator_extension_points (hooks : Hooks) (tbl : CapTable)
    (s : CoreStage) (hinc : includeStage hooks tbl s = true) :
    ∃ u v, buildPipeline hooks tbl =
      u ++ ((hooks.insertBefore s).map PassDesc.aux ++
        [PassDesc.core s ((hooks.replace s).getD (defaultImpl s))] ++
        (hooks.insertAfter s).map PassDesc.aux) ++ v := by
  have hmemCore : s ∈ coreOrder := by
    cases s <;> simp [coreOrder]
  have hmem : s ∈ coreOrder.filter (includeStage hooks tbl) :=
    List.mem_filter.mpr ⟨hmemCore, hinc⟩
  rcases List.append_of_mem hmem with ⟨l1, l2, hsplit⟩
  refine ⟨l1.flatMap (stagePasses hooks), l2.flatMap (stagePasses hooks), ?_⟩
  simp only [buildPipeline, hsplit, List.flatMap_append, List.flatMap_cons]
  simp [stagePasses]

/-! ### Failure at the IR Translator on a missing entry (C6) -/

/-- The default pipeline, written out. -/
theorem buildPipeline_default (tbl : CapTable) :
    buildPipeline defaultHooks tbl =
      [PassDesc.core .irTranslator irTranslate,
       PassDesc.core .legalizer legalizeFU,
       PassDesc.core .regBankSelect (fun tbl F => .ok (regBankSelect tbl F)),
       PassDesc.core .instructionSelect selectFU] := rfl

/-- Claim C6: an input function containing an operation with no
Capability Table entry at all is failed by the pipeline at the IR
Translator stage — before any later stage runs — with a diagnostic
naming a missing operation that occurs in the function, and no output
Function Unit is produced. -/
theorem pipeline_fails_missing_entry (tbl : CapTable) (F : FunctionUnit)
    (hmiss : ∃ i ∈ instrsOf F, entryFor tbl i.op = none) :
    ∃ op, (∃ i ∈ instrsOf F, i.op = op ∧ entryFor tbl op = none) ∧
      runPipeline defaultHooks tbl F =
        .error ⟨.irTranslator, .missingEntry op⟩ ∧
      ∀ F', runPipeline defaultHooks tbl F ≠ .ok F' := by
  have hsome : ((instrsOf F).find? (fun i => (entryFor tbl i.op).isNone)).isSome := by
    rw [List.find?_isSome]
    rcases hmiss with ⟨i, hi, hent⟩
    exact ⟨i, hi, by simp [hent]⟩
  rcases Option.isSome_iff_exists.mp hsome with ⟨i0, hfind⟩
  have hmem : i0 ∈ instrsOf F := List.mem_of_find?_eq_some hfind
  have hent : entryFor tbl i0.op = none := by
    have := List.find?_some hfind
    simpa using this
  have hfirst : firstMissing tbl (instrsOf F) = some i0.op := by
    simp [firstMissing, hfind]
  have hrun : runPipeline defaultHooks tbl F =
      .error ⟨.irTranslator, .missingEntry i0.op⟩ := by
    rw [runPipeline, buildPipeline_default]
    simp only [runStages, runPass, irTranslate, hfirst]
  exact ⟨i0.op, ⟨i0, hmem, rfl, hent⟩, hrun, by rw [hrun]; intro F' h; cases h⟩

/-! ### Best-pattern selection: characterization and order independence -/

/-- No pattern is selected exactly when no pattern matches. -/
theorem bestPat_none_iff (bmap : List (Nat × Nat)) (i : Instr) :
    ∀ l, bestPat bmap i l = none ↔ ∀ p ∈ l, matchesPat bmap p i = false := by
  intro l
  induction l with
  | nil => simp [bestPat]
  | cons p ps ih =>
    simp only [bestPat]
    cases hb : bestPat bmap i ps with
    | none =>
      dsimp only
      by_cases hm : matchesPat bmap p i = true
      · rw [if_pos hm]
        simp only [List.mem_cons]
        constructor
        · intro h; cases h
        · intro h
          rw [h p (Or.inl rfl)] at hm
          cases hm
      · rw [if_neg hm]
        simp only [List.mem_cons]
        constructor
        · intro _ q hq
          rcases hq with rfl | hq
          · revert hm; cases matchesPat bmap q i <;> simp
          · exact (ih.mp hb) q hq
        · intro _; trivial
    | some q =>
      dsimp only
      constructor
      · intro h
        by_cases hm : matchesPat bmap p i = true
        · rw [if_pos hm] at h; cases h
        · rw [if_neg hm] at h; cases h
      · intro h
        have hnone : bestPat bmap i ps = none :=
          ih.mpr (fun x hx => h x (List.mem_cons_of_mem p hx))
        rw [hb] at hnone
        cases hnone

/-- The selected pattern is a matching member of highest priority. -/
theorem bestPat_some_spec (bmap : List (Nat × Nat)) (i : Instr) :
    ∀ l p, bestPat bmap i l = some p →
      p ∈ l ∧ matchesPat bmap p i = true ∧
        ∀ q ∈ l, matchesPat bmap q i = true → p.prio ≤ q.prio := by
  intro l
  induction l with
  | nil => intro p h; cases h
  | cons x xs ih =>
    intro p h
    simp only [bestPat] at h
    cases hb : bestPat bmap i xs with
    | none =>
      rw [hb] at h
      dsimp only at h
      by_cases hm : matchesPat bmap x i = true
      · rw [if_pos hm] at h
        cases h
        refine ⟨List.mem_cons_self x xs, hm, ?_⟩
        intro q hq hmq
        rcases List.mem_cons.mp hq with rfl | hq
        · exact le_refl _
        · rw [(bestPat_none_iff bmap i xs).mp hb q hq] at hmq
          cases hmq
      · rw [if_neg hm] at h
        cases h
    | some q0 =>
      rw [hb] at h
      dsimp only at h
      rcases ih q0 hb with ⟨hq0mem, hq0m, hq0min⟩
      by_cases hm : matchesPat bmap x i = true
      · rw [if_pos hm] at h
        have hbetter : better x q0 = p := by injection h
        rw [better] at hbetter
        by_cases hle : x.prio ≤ q0.prio
        · rw [if_pos hle] at hbetter
          subst hbetter
          refine ⟨List.mem_cons_self x xs, hm, ?_⟩
          intro q hq hmq
          rcases List.mem_cons.mp hq with rfl | hq
          · exact le_refl _
          · exact le_trans hle (hq0min q hq hmq)
        · rw [if_neg hle] at hbetter
          subst hbetter
          refine ⟨List.mem_cons_of_mem x hq0mem, hq0m, ?_⟩
          intro q hq hmq
          rcases List.mem_cons.mp hq with rfl | hq
          · omega
          · exact hq0min q hq hmq
      · rw [if_neg hm] at h
        cases h
        refine ⟨List.mem_cons_of_mem x hq0mem, hq0m, ?_⟩
        intro q hq hmq
        rcases List.mem_cons.mp hq with rfl | hq
        · rw [hmq] at hm; exact absurd rfl hm
        · exact hq0min q hq hmq

/-- Under duplicate-free priorities, selection does not depend on the
order in which the pattern list is traversed: any permutation of the
pattern list selects the same pattern. -/
theorem bestPat_perm (bmap : List (Nat × Nat)) (i : Instr)
    (l l' : List Pattern) (hperm : l.Perm l')
    (hnd : (l.map (fun p => p.prio)).Nodup) :
    bestPat bmap i l = bestPat bmap i l' := by
  cases hl : bestPat bmap i l with
  | none =>
    cases hl' : bestPat bmap i l' with
    | none => rfl
    | some p =>
      rcases bestPat_some_spec bmap i l' p hl' with ⟨hmem, hm, _⟩
      have := (bestPat_none_iff bmap i l).mp hl p (hperm.mem_iff.mpr hmem)
      rw [this] at hm
      cases hm
  | some p =>
    cases hl' : bestPat bmap i l' with
    | none =>
      rcases bestPat_some_spec bmap i l p hl with ⟨hmem, hm, _⟩
      have := (bestPat_none_iff bmap i l').mp hl' p (hperm.mem_iff.mp hmem)
      rw [this] at hm
      cases hm
    | some p' =>
      rcases bestPat_some_spec bmap i l p hl with ⟨hmem, hm, hmin⟩
      rcases bestPat_some_spec bmap i l' p' hl' with ⟨hmem', hm', hmin'⟩
      have hmem'l : p' ∈ l := hperm.mem_iff.mpr hmem'
      have hle1 : p.prio ≤ p'.prio := hmin p' hmem'l hm'
      have hle2 : p'.prio ≤ p.prio := hmin' p (hperm.mem_iff.mp hmem) hm
      have hprio : p.prio = p'.prio := le_antisymm hle1 hle2
      have heq : p = p' :=
        List.inj_on_of_nodup_map hnd hmem hmem'l hprio
      rw [heq]

/-- Selection of one instruction is invariant under permuting the
pattern list, when pattern priorities are duplicate-free. -/
theorem selectInstr_perm (tbl : CapTable) (ps2 : List Pattern)
    (bmap : List (Nat × Nat)) (i : Instr) (hperm : tbl.patterns.Perm ps2)
    (hnd : (tbl.patterns.map (fun p => p.prio)).Nodup) :
    selectInstr { tbl with patterns := ps2 } bmap i = selectInstr tbl bmap i := by
  simp only [selectInstr]
  rw [← bestPat_perm bmap i tbl.patterns ps2 hperm hnd]

/-- Block selection is invariant under permuting the pattern list. -/
theorem selectBlock_perm (tbl : CapTable) (ps2 : List Pattern)
    (bmap : List (Nat × Nat)) (hperm : tbl.patterns.Perm ps2)
    (hnd : (tbl.patterns.map (fun p => p.prio)).Nodup) :
    ∀ b, selectBlock { tbl with patterns := ps2 } bmap b = selectBlock tbl bmap b := by
  intro b
  induction b with
  | nil => rfl
  | cons i rest ih =>
    simp only [selectBlock, selectInstr_perm tbl ps2 bmap i hperm hnd, ih]

/-- Whole-function selection is invariant under permuting the pattern
list. -/
theorem selectBlocks_perm (tbl : CapTable) (ps2 : List Pattern)
    (bmap : List (Nat × Nat)) (hperm : tbl.patterns.Perm ps2)
    (hnd : (tbl.patterns.map (fun p => p.prio)).Nodup) :
    ∀ bs, selectBlocks { tbl with patterns := ps2 } bmap bs =
      selectBlocks tbl bmap bs := by
  intro bs
  induction bs with
  | nil => rfl
  | cons b rest ih =>
    simp only [selectBlocks, selectBlock_perm tbl ps2 bmap hperm hnd b, ih]

/-- Claim C7: the pipeline is deterministic — two runs on the same
function and tables produce identical results — and in particular
instruction selection does not depend on unordered iteration: permuting
the pattern list (under the spec's fixed, duplicate-free priorities)
leaves the Instruction Selector's output bit-for-bit identical. -/
theorem pipeline_deterministic (hooks : Hooks) (tbl : CapTable)
    (F : FunctionUnit) :
    runPipeline hooks tbl F = runPipeline hooks tbl F ∧
    (∀ ps2, tbl.patterns.Perm ps2 →
      (tbl.patterns.map (fun p => p.prio)).Nodup →
      selectFU { tbl with patterns := ps2 } F = selectFU tbl F) := by
  refine ⟨rfl, ?_⟩
  intro ps2 hperm hnd
  simp only [selectFU, selectBlocks_perm tbl ps2 F.vregBank hperm hnd F.blocks]

/-! ### Selection totality (C4) -/

/-- The entry found for an operation carries that operation id. -/
theorem entryFor_op (tbl : CapTable) (op : Nat) (e : CapEntry)
    (h : entryFor tbl op = some e) : e.op = op := by
  have := List.find?_some h
  simpa using this

/-- Modelled from the spec: the pattern set contains, for every declared
operation, a fallback/general pattern covering all the entry's legal
(type, bank) combinations. -/
def hasFallback (tbl : CapTable) : Prop :=
  ∀ e ∈ tbl.entries, ∃ pat ∈ tbl.patterns,
    pat.rootOp = e.op ∧ ∀ tb ∈ e.legal, tb ∈ pat.req

/-- The instruction's result register carries exactly the bank the table
assigns for the operation at the result type. -/
def bankAssigned (tbl : CapTable) (bmap : List (Nat × Nat)) (i : Instr) : Prop :=
  ∀ t r, i.resTy = some t → i.res = some r →
    lookupB bmap r = bankFor tbl i.op (some t)

/-- A legal, bank-assigned instruction is matched by the fallback
pattern of its operation's entry. -/
theorem fallback_matches (tbl : CapTable) (bmap : List (Nat × Nat)) (i : Instr)
    (e : CapEntry) (hent : entryFor tbl i.op = some e)
    (hleg : isLegalPair tbl i.op i.resTy = true)
    (hba : bankAssigned tbl bmap i) (pat : Pattern)
    (hroot : pat.rootOp = e.op) (hcover : ∀ tb ∈ e.legal, tb ∈ pat.req) :
    matchesPat bmap pat i = true := by
  have hop : pat.rootOp = i.op := by rw [hroot, entryFor_op tbl i.op e hent]
  simp only [matchesPat, Bool.and_eq_true, beq_iff_eq]
  refine ⟨hop, ?_⟩
  cases hty : i.resTy with
  | none => rfl
  | some t =>
    cases hres : i.res with
    | none => rfl
    | some r =>
      have hleg2 := hleg
      simp only [isLegalPair, hent, hty] at hleg2
      rcases Option.isSome_iff_exists.mp hleg2 with ⟨tb0, hfind⟩
      have htb1 : tb0.1 = t := by
        have := List.find?_some hfind
        simpa using this
      have htbmem : tb0 ∈ e.legal := List.mem_of_find?_eq_some hfind
      have hbank : bankFor tbl i.op (some t) = some tb0.2 := by
        simp only [bankFor, hent, hfind]
        rfl
      have hlook : lookupB bmap r = some tb0.2 := by
        rw [hba t r hty hres, hbank]
      dsimp only
      rw [hlook]
      dsimp only
      have heq : (t, tb0.2) = tb0 := by
        rw [← htb1]
      rw [heq]
      simpa using hcover tb0 htbmem

/-- Claim C4: selection is total on legal, bank-assigned operations —
whenever the table provides fallback patterns, the Instruction Selector
finds at least one matching pattern for every legal, bank-assigned
instruction, so its no-pattern-matches failure branch is unreachable on
fully legalized, bank-assigned input. -/
theorem selector_total (tbl : CapTable) (bmap : List (Nat × Nat)) (i : Instr)
    (hfb : hasFallback tbl) (hleg : isLegalPair tbl i.op i.resTy = true)
    (hba : bankAssigned tbl bmap i) :
    ∃ j, selectInstr tbl bmap i = .ok j := by
  cases hent : entryFor tbl i.op with
  | none =>
    have hleg2 := hleg
    simp only [isLegalPair, hent] at hleg2
    cases i.resTy <;> cases hleg2
  | some e =>
    rcases hfb e (entryFor_mem tbl i.op e hent) with ⟨pat, hpatmem, hroot, hcover⟩
    have hmatch : matchesPat bmap pat i = true :=
      fallback_matches tbl bmap i e hent hleg hba pat hroot hcover
    cases hbp : bestPat bmap i tbl.patterns with
    | none =>
      have := (bestPat_none_iff bmap i tbl.patterns).mp hbp pat hpatmem
      rw [this] at hmatch
      cases hmatch
    | some pat' =>
      refine ⟨⟨pat'.template, i.operands, i.res, i.resTy⟩, ?_⟩
      simp only [selectInstr, hbp]

/-! ### Bank consistency of the Register Bank Selector (C5) -/

/-- The virtual registers an operand reads. -/
def usesOfOperand : Operand → List Nat
  | .vreg r _ => [r]
  | _ => []

/-- The virtual registers an instruction reads. -/
def usesOf (i : Instr) : List Nat :=
  i.operands.flatMap usesOfOperand

/-- The virtual registers an instruction defines. -/
def defsOf (i : Instr) : List Nat :=
  i.res.toList

/-- All register indices of the Function Unit lie below the arena's next
fresh index (the arena invariant of the spec's design notes). -/
def regsBounded (F : FunctionUnit) : Prop :=
  ∀ i ∈ instrsOf F,
    (∀ r ∈ usesOf i, r < F.nextReg) ∧ (∀ r ∈ defsOf i, r < F.nextReg)

/-- All keys of a bank map lie in a half-open interval. -/
def keysIn (m : List (Nat × Nat)) (lo hi : Nat) : Prop :=
  ∀ kb ∈ m, lo ≤ kb.1 ∧ kb.1 < hi

/-- The keys of a bank map are strictly increasing. -/
def keysIncr (m : List (Nat × Nat)) : Prop :=
  List.Pairwise (fun a b => a.1 < b.1) m

/-- A lookup that succeeds in the first map succeeds in the
concatenation. -/
theorem lookupB_append_some (m1 m2 : List (Nat × Nat)) (r b : Nat)
    (h : lookupB m1 r = some b) : lookupB (m1 ++ m2) r = some b := by
  induction m1 with
  | nil => simp [lookupB] at h
  | cons kb rest ih =>
    by_cases hk : (kb.1 == r) = true
    · simp only [lookupB, List.cons_append, List.find?_cons, hk] at h ⊢
      exact h
    · rw [Bool.not_eq_true] at hk
      simp only [lookupB, List.cons_append, List.find?_cons, hk] at h ⊢
      exact ih h

/-- A lookup that fails in the first map falls through to the second. -/
theorem lookupB_append_none (m1 m2 : List (Nat × Nat)) (r : Nat)
    (h : lookupB m1 r = none) : lookupB (m1 ++ m2) r = lookupB m2 r := by
  induction m1 with
  | nil => rfl
  | cons kb rest ih =>
    by_cases hk : (kb.1 == r) = true
    · simp only [lookupB, List.cons_append, List.find?_cons, hk] at h
      cases h
    · rw [Bool.not_eq_true] at hk
      simp only [lookupB, List.cons_append, List.find?_cons, hk] at h ⊢
      exact ih h

/-- In a map with strictly increasing keys, membership determines the
lookup. -/
theorem lookupB_of_incr_mem (m : List (Nat × Nat)) (r b : Nat)
    (hincr : keysIncr m) (hmem : (r, b) ∈ m) : lookupB m r = some b := by
  induction m with
  | nil => cases hmem
  | cons kb rest ih =>
    rcases List.pairwise_cons.mp hincr with ⟨hhd, htl⟩
    rcases List.mem_cons.mp hmem with rfl | hmem2
    · simp [lookupB, List.find?_cons]
    · have hlt : kb.1 < r := by
        have := hhd (r, b) hmem2
        exact this
      simp only [lookupB, List.find?_cons]
      have hne : (kb.1 == r) = false := by
        simp only [beq_eq_false_iff_ne]
        omega
      rw [hne]
      exact ih htl hmem2

/-- A register that is no key of the map has no bank there. -/
theorem lookupB_none_of_no_key (m : List (Nat × Nat)) (r : Nat)
    (h : ∀ kb ∈ m, kb.1 ≠ r) : lookupB m r = none := by
  induction m with
  | nil => rfl
  | cons kb rest ih =>
    simp only [lookupB, List.find?_cons]
    have hne : (kb.1 == r) = false := by
      simp only [beq_eq_false_iff_ne]
      exact h kb (List.mem_cons_self kb rest)
    rw [hne]
    exact ih (fun x hx => h x (List.mem_cons_of_mem kb hx))

/-- Operand rewriting: the counter grows, the fresh copy results have
increasing keys in the counter interval, and every rewritten register
operand either is a fresh copy result recorded with the bank its
consumer requires, or is an original operand whose assigned bank (if
any) already equals the required bank. -/
theorem rbsOps_spec (tbl : CapTable) (bmap : List (Nat × Nat)) (iop : Nat) :
    ∀ os n,
      n ≤ (rbsOps tbl bmap iop n os).next ∧
      keysIn (rbsOps tbl bmap iop n os).fresh n (rbsOps tbl bmap iop n os).next ∧
      keysIncr (rbsOps tbl bmap iop n os).fresh ∧
      (∀ r ty, Operand.vreg r ty ∈ (rbsOps tbl bmap iop n os).ops →
        ∀ b, bankFor tbl iop ty = some b →
          ((r, b) ∈ (rbsOps tbl bmap iop n os).fresh ∨
            (Operand.vreg r ty ∈ os ∧
              (lookupB bmap r = some b ∨ lookupB bmap r = none)))) := by
  intro os
  induction os with
  | nil =>
    intro n
    refine ⟨le_refl n, ?_, ?_, ?_⟩
    · intro kb hkb; cases hkb
    · exact List.Pairwise.nil
    · intro r ty hmem; cases hmem
  | cons o os ih =>
    intro n
    cases o with
    | vreg r0 ty0 =>
      cases hbf : bankFor tbl iop ty0 with
      | none =>
        have hout : rbsOps tbl bmap iop n (Operand.vreg r0 ty0 :: os) =
            ⟨(rbsOps tbl bmap iop n os).copies,
              Operand.vreg r0 ty0 :: (rbsOps tbl bmap iop n os).ops,
              (rbsOps tbl bmap iop n os).next,
              (rbsOps tbl bmap iop n os).fresh⟩ := by
          simp only [rbsOps, hbf]
        rcases ih n with ⟨ih1, ih2, ih3, ih4⟩
        rw [hout]
        refine ⟨ih1, ih2, ih3, ?_⟩
        intro r ty hmem b hbf2
        rcases List.mem_cons.mp hmem with heq | hmem2
        · have hr : r = r0 ∧ ty = ty0 := by
            constructor <;> injection heq
          rcases hr with ⟨rfl, rfl⟩
          rw [hbf2] at hbf
          cases hbf
        · rcases ih4 r ty hmem2 b hbf2 with hl | ⟨hmemos, hlk⟩
          · exact Or.inl hl
          · exact Or.inr ⟨List.mem_cons_of_mem _ hmemos, hlk⟩
      | some b0 =>
        cases hlk : lookupB bmap r0 with
        | none =>
          have hout : rbsOps tbl bmap iop n (Operand.vreg r0 ty0 :: os) =
              ⟨(rbsOps tbl bmap iop n os).copies,
                Operand.vreg r0 ty0 :: (rbsOps tbl bmap iop n os).ops,
                (rbsOps tbl bmap iop n os).next,
                (rbsOps tbl bmap iop n os).fresh⟩ := by
            simp only [rbsOps, hbf, hlk]
          rcases ih n with ⟨ih1, ih2, ih3, ih4⟩
          rw [hout]
          refine ⟨ih1, ih2, ih3, ?_⟩
          intro r ty hmem b hbf2
          rcases List.mem_cons.mp hmem with heq | hmem2
          · have hr : r = r0 ∧ ty = ty0 := by
              constructor <;> injection heq
            rcases hr with ⟨rfl, rfl⟩
            exact Or.inr ⟨List.mem_cons_self _ _, Or.inr hlk⟩
          · rcases ih4 r ty hmem2 b hbf2 with hl | ⟨hmemos, hlk2⟩
            · exact Or.inl hl
            · exact Or.inr ⟨List.mem_cons_of_mem _ hmemos, hlk2⟩
        | some b2 =>
          by_cases hb : b0 = b2
          · subst hb
            have hout : rbsOps tbl bmap iop n (Operand.vreg r0 ty0 :: os) =
                ⟨(rbsOps tbl bmap iop n os).copies,
                  Operand.vreg r0 ty0 :: (rbsOps tbl bmap iop n os).ops,
                  (rbsOps tbl bmap iop n os).next,
                  (rbsOps tbl bmap iop n os).fresh⟩ := by
              simp only [rbsOps, hbf, hlk, if_pos]
            rcases ih n with ⟨ih1, ih2, ih3, ih4⟩
            rw [hout]
            refine ⟨ih1, ih2, ih3, ?_⟩
            intro r ty hmem b hbf2
            rcases List.mem_cons.mp hmem with heq | hmem2
            · have hr : r = r0 ∧ ty = ty0 := by
                constructor <;> injection heq
              rcases hr with ⟨rfl, rfl⟩
              rw [hbf2] at hbf
              have hbb : b = b0 := by injection hbf with h2
              subst hbb
              exact Or.inr ⟨List.mem_cons_self _ _, Or.inl hlk⟩
            · rcases ih4 r ty hmem2 b hbf2 with hl | ⟨hmemos, hlk2⟩
              · exact Or.inl hl
              · exact Or.inr ⟨List.mem_cons_of_mem _ hmemos, hlk2⟩
          · have hout : rbsOps tbl bmap iop n (Operand.vreg r0 ty0 :: os) =
                ⟨⟨tbl.copyOp, [Operand.vreg r0 ty0], some n, ty0⟩ ::
                    (rbsOps tbl bmap iop (n + 1) os).copies,
                  Operand.vreg n ty0 :: (rbsOps tbl bmap iop (n + 1) os).ops,
                  (rbsOps tbl bmap iop (n + 1) os).next,
                  (n, b0) :: (rbsOps tbl bmap iop (n + 1) os).fresh⟩ := by
              simp only [rbsOps, hbf, hlk, if_neg hb]
            rcases ih (n + 1) with ⟨ih1, ih2, ih3, ih4⟩
            rw [hout]
            dsimp only
            refine ⟨?_, ?_, ?_, ?_⟩
            · omega
            · intro kb hkb
              rcases List.mem_cons.mp hkb with rfl | hkb2
              · constructor
                · exact le_refl n
                · omega
              · rcases ih2 kb hkb2 with ⟨hlo, hhi⟩
                exact ⟨by omega, hhi⟩
            · rw [keysIncr, List.pairwise_cons]
              refine ⟨?_, ih3⟩
              intro kb hkb
              rcases ih2 kb hkb with ⟨hlo, _⟩
              simp only
              omega
            · intro r ty hmem b hbf2
              rcases List.mem_cons.mp hmem with heq | hmem2
              · have hr : r = n ∧ ty = ty0 := by
                  constructor <;> injection heq
                rcases hr with ⟨rfl, rfl⟩
                rw [hbf2] at hbf
                have hbb : b = b0 := by injection hbf with h2
                subst hbb
                exact Or.inl (List.mem_cons_self _ _)
              · rcases ih4 r ty hmem2 b hbf2 with hl | ⟨hmemos, hlk2⟩
                · exact Or.inl (List.mem_cons_of_mem _ hl)
                · exact Or.inr ⟨List.mem_cons_of_mem _ hmemos, hlk2⟩
    | imm v =>
      have hout : rbsOps tbl bmap iop n (Operand.imm v :: os) =
          ⟨(rbsOps tbl bmap iop n os).copies,
            Operand.imm v :: (rbsOps tbl bmap iop n os).ops,
            (rbsOps tbl bmap iop n os).next,
            (rbsOps tbl bmap iop n os).fresh⟩ := by
        simp only [rbsOps]
      rcases ih n with ⟨ih1, ih2, ih3, ih4⟩
      rw [hout]
      refine ⟨ih1, ih2, ih3, ?_⟩
      intro r ty hmem b hbf2
      rcases List.mem_cons.mp hmem with heq | hmem2
      · cases heq
      · rcases ih4 r ty hmem2 b hbf2 with hl | ⟨hmemos, hlk2⟩
        · exact Or.inl hl
        · exact Or.inr ⟨List.mem_cons_of_mem _ hmemos, hlk2⟩
    | mem a =>
      have hout : rbsOps tbl bmap iop n (Operand.mem a :: os) =
          ⟨(rbsOps tbl bmap iop n os).copies,
            Operand.mem a :: (rbsOps tbl bmap iop n os).ops,
            (rbsOps tbl bmap iop n os).next,
            (rbsOps tbl bmap iop n os).fresh⟩ := by
        simp only [rbsOps]
      rcases ih n with ⟨ih1, ih2, ih3, ih4⟩
      rw [hout]
      refine ⟨ih1, ih2, ih3, ?_⟩
      intro r ty hmem b hbf2
      rcases List.mem_cons.mp hmem with heq | hmem2
      · cases heq
      · rcases ih4 r ty hmem2 b hbf2 with hl | ⟨hmemos, hlk2⟩
        · exact Or.inl hl
        · exact Or.inr ⟨List.mem_cons_of_mem _ hmemos, hlk2⟩
    | label bb =>
      have hout : rbsOps tbl bmap iop n (Operand.label bb :: os) =
          ⟨(rbsOps tbl bmap iop n os).copies,
            Operand.label bb :: (rbsOps tbl bmap iop n os).ops,
            (rbsOps tbl bmap iop n os).next,
            (rbsOps tbl bmap iop n os).fresh⟩ := by
        simp only [rbsOps]
      rcases ih n with ⟨ih1, ih2, ih3, ih4⟩
      rw [hout]
      refine ⟨ih1, ih2, ih3, ?_⟩
      intro r ty hmem b hbf2
      rcases List.mem_cons.mp hmem with heq | hmem2
      · cases heq
      · rcases ih4 r ty hmem2 b hbf2 with hl | ⟨hmemos, hlk2⟩
        · exact Or.inl hl
        · exact Or.inr ⟨List.mem_cons_of_mem _ hmemos, hlk2⟩

/-- One operand is either kept (possibly with no rewriting) or rerouted
through a fresh cross-bank copy. -/
theorem rbsOps_cons_shape (tbl : CapTable) (bmap : List (Nat × Nat)) (iop : Nat)
    (o : Operand) (os : List Operand) (n : Nat) :
    (rbsOps tbl bmap iop n (o :: os) =
      ⟨(rbsOps tbl bmap iop n os).copies, o :: (rbsOps tbl bmap iop n os).ops,
        (rbsOps tbl bmap iop n os).next, (rbsOps tbl bmap iop n os).fresh⟩) ∨
    (∃ r0 ty0 b0, o = Operand.vreg r0 ty0 ∧
      rbsOps tbl bmap iop n (o :: os) =
        ⟨⟨tbl.copyOp, [Operand.vreg r0 ty0], some n, ty0⟩ ::
            (rbsOps tbl bmap iop (n + 1) os).copies,
          Operand.vreg n ty0 :: (rbsOps tbl bmap iop (n + 1) os).ops,
          (rbsOps tbl bmap iop (n + 1) os).next,
          (n, b0) :: (rbsOps tbl bmap iop (n + 1) os).fresh⟩) := by
  cases o with
  | vreg r0 ty0 =>
    cases hbf : bankFor tbl iop ty0 with
    | none => exact Or.inl (by simp only [rbsOps, hbf])
    | some b0 =>
      cases hlk : lookupB bmap r0 with
      | none => exact Or.inl (by simp only [rbsOps, hbf, hlk])
      | some b2 =>
        by_cases hb : b0 = b2
        · subst hb
          exact Or.inl (by simp only [rbsOps, hbf, hlk, if_pos])
        · exact Or.inr ⟨r0, ty0, b0, rfl, by simp only [rbsOps, hbf, hlk, if_neg hb]⟩
  | imm v => exact Or.inl (by simp only [rbsOps])
  | mem a => exact Or.inl (by simp only [rbsOps])
  | label bb => exact Or.inl (by simp only [rbsOps])

/-- Every inserted instruction is a cross-bank copy. -/
theorem rbsOps_copies_op (tbl : CapTable) (bmap : List (Nat × Nat)) (iop : Nat) :
    ∀ os n c, c ∈ (rbsOps tbl bmap iop n os).copies → c.op = tbl.copyOp := by
  intro os
  induction os with
  | nil => intro n c hc; cases hc
  | cons o os ih =>
    intro n c hc
    rcases rbsOps_cons_shape tbl bmap iop o os n with hout | ⟨r0, ty0, b0, _, hout⟩
    · rw [hout] at hc
      exact ih n c hc
    · rw [hout] at hc
      rcases List.mem_cons.mp hc with rfl | hc2
      · rfl
      · exact ih (n + 1) c hc2

/-- Block rewriting: counter growth, fresh-key discipline, and a
characterization of the output instructions — each is an inserted
cross-bank copy or an original instruction with rerouted operands whose
fresh records are all in the block's fresh list. -/
theorem rbsBlock_spec (tbl : CapTable) (bmap : List (Nat × Nat)) :
    ∀ b n,
      n ≤ (rbsBlock tbl bmap n b).2.1 ∧
      keysIn (rbsBlock tbl bmap n b).2.2 n (rbsBlock tbl bmap n b).2.1 ∧
      keysIncr (rbsBlock tbl bmap n b).2.2 ∧
      (∀ i' ∈ (rbsBlock tbl bmap n b).1, i'.op = tbl.copyOp ∨
        ∃ i ∈ b, ∃ n0, i'.op = i.op ∧ i'.res = i.res ∧ i'.resTy = i.resTy ∧
          i'.operands = (rbsOps tbl bmap i.op n0 i.operands).ops ∧
          (∀ x ∈ (rbsOps tbl bmap i.op n0 i.operands).fresh,
            x ∈ (rbsBlock tbl bmap n b).2.2)) := by
  intro b
  induction b with
  | nil =>
    intro n
    refine ⟨le_refl n, ?_, List.Pairwise.nil, ?_⟩
    · intro kb hkb; cases hkb
    · intro i' hi'; cases hi'
  | cons i rest ih =>
    intro n
    rcases rbsOps_spec tbl bmap i.op i.operands n with ⟨ho1, ho2, ho3, _⟩
    rcases ih (rbsOps tbl bmap i.op n i.operands).next with ⟨ih1, ih2, ih3, ih4⟩
    have hblock : rbsBlock tbl bmap n (i :: rest) =
        ((rbsOps tbl bmap i.op n i.operands).copies ++
            [⟨i.op, (rbsOps tbl bmap i.op n i.operands).ops, i.res, i.resTy⟩] ++
            (rbsBlock tbl bmap (rbsOps tbl bmap i.op n i.operands).next rest).1,
          (rbsBlock tbl bmap (rbsOps tbl bmap i.op n i.operands).next rest).2.1,
          (rbsOps tbl bmap i.op n i.operands).fresh ++
            (rbsBlock tbl bmap (rbsOps tbl bmap i.op n i.operands).next rest).2.2) := by
      simp only [rbsBlock, rbsInstr]
    rw [hblock]
    refine ⟨?_, ?_, ?_, ?_⟩
    · dsimp only
      omega
    · dsimp only
      intro kb hkb
      rcases List.mem_append.mp hkb with hkb1 | hkb2
      · rcases ho2 kb hkb1 with ⟨hlo, hhi⟩
        exact ⟨hlo, by omega⟩
      · rcases ih2 kb hkb2 with ⟨hlo, hhi⟩
        exact ⟨by omega, hhi⟩
    · dsimp only
      rw [keysIncr, List.pairwise_append]
      refine ⟨ho3, ih3, ?_⟩
      intro a ha c hc
      rcases ho2 a ha with ⟨_, hahi⟩
      rcases ih2 c hc with ⟨hclo, _⟩
      omega
    · dsimp only
      intro i' hi'
      rcases List.mem_append.mp hi' with hi1 | hi2
      · rcases List.mem_append.mp hi1 with hic | him
        · exact Or.inl (rbsOps_copies_op tbl bmap i.op i.operands n i' hic)
        · rcases List.mem_singleton.mp him with rfl
          refine Or.inr ⟨i, List.mem_cons_self i rest, n, rfl, rfl, rfl, rfl, ?_⟩
          intro x hx
          exact List.mem_append.mpr (Or.inl hx)
      · rcases ih4 i' hi2 with hcop | ⟨i2, hi2mem, n0, h1, h2, h3, h4, h5⟩
        · exact Or.inl hcop
        · refine Or.inr ⟨i2, List.mem_cons_of_mem i hi2mem, n0, h1, h2, h3, h4, ?_⟩
          intro x hx
          exact List.mem_append.mpr (Or.inr (h5 x hx))

/-- Function rewriting: the same discipline over all blocks. -/
theorem rbsBlocks_spec (tbl : CapTable) (bmap : List (Nat × Nat)) :
    ∀ bs n,
      n ≤ (rbsBlocks tbl bmap n bs).2.1 ∧
      keysIn (rbsBlocks tbl bmap n bs).2.2 n (rbsBlocks tbl bmap n bs).2.1 ∧
      keysIncr (rbsBlocks tbl bmap n bs).2.2 ∧
      (∀ b' ∈ (rbsBlocks tbl bmap n bs).1, ∀ i' ∈ b', i'.op = tbl.copyOp ∨
        ∃ i ∈ bs.flatten, ∃ n0, i'.op = i.op ∧ i'.res = i.res ∧ i'.resTy = i.resTy ∧
          i'.operands = (rbsOps tbl bmap i.op n0 i.operands).ops ∧
          (∀ x ∈ (rbsOps tbl bmap i.op n0 i.operands).fresh,
            x ∈ (rbsBlocks tbl bmap n bs).2.2)) := by
  intro bs
  induction bs with
  | nil =>
    intro n
    refine ⟨le_refl n, ?_, List.Pairwise.nil, ?_⟩
    · intro kb hkb; cases hkb
    · intro b' hb'; cases hb'
  | cons b rest ih =>
    intro n
    rcases rbsBlock_spec tbl bmap b n with ⟨hb1, hb2, hb3, hb4⟩
    rcases ih (rbsBlock tbl bmap n b).2.1 with ⟨ih1, ih2, ih3, ih4⟩
    have hout : rbsBlocks tbl bmap n (b :: rest) =
        ((rbsBlock tbl bmap n b).1 ::
            (rbsBlocks tbl bmap (rbsBlock tbl bmap n b).2.1 rest).1,
          (rbsBlocks tbl bmap (rbsBlock tbl bmap n b).2.1 rest).2.1,
          (rbsBlock tbl bmap n b).2.2 ++
            (rbsBlocks tbl bmap (rbsBlock tbl bmap n b).2.1 rest).2.2) := by
      simp only [rbsBlocks]
    rw [hout]
    refine ⟨?_, ?_, ?_, ?_⟩
    · dsimp only
      omega
    · dsimp only
      intro kb hkb
      rcases List.mem_append.mp hkb with hkb1 | hkb2
      · rcases hb2 kb hkb1 with ⟨hlo, hhi⟩
        exact ⟨hlo, by omega⟩
      · rcases ih2 kb hkb2 with ⟨hlo, hhi⟩
        exact ⟨by omega, hhi⟩
    · dsimp only
      rw [keysIncr, List.pairwise_append]
      refine ⟨hb3, ih3, ?_⟩
      intro a ha c hc
      rcases hb2 a ha with ⟨_, hahi⟩
      rcases ih2 c hc with ⟨hclo, _⟩
      omega
    · dsimp only
      intro b' hb' i' hi'
      rcases List.mem_cons.mp hb' with rfl | hb'2
      · rcases hb4 i' hi' with hcop | ⟨i, himem, n0, h1, h2, h3, h4, h5⟩
        · exact Or.inl hcop
        · refine Or.inr ⟨i, ?_, n0, h1, h2, h3, h4, ?_⟩
          · rw [List.flatten_cons]
            exact List.mem_append.mpr (Or.inl himem)
          · intro x hx
            exact List.mem_append.mpr (Or.inl (h5 x hx))
      · rcases ih4 b' hb'2 i' hi' with hcop | ⟨i, himem, n0, h1, h2, h3, h4, h5⟩
        · exact Or.inl hcop
        · refine Or.inr ⟨i, ?_, n0, h1, h2, h3, h4, ?_⟩
          · rw [List.flatten_cons]
            exact List.mem_append.mpr (Or.inr himem)
          · intro x hx
            exact List.mem_append.mpr (Or.inr (h5 x hx))

/-- Claim C5: bank consistency after the Register Bank Selector.  In its
output, every use by a non-copy instruction reads a register whose
assigned bank (in the output's bank map) equals the bank the consuming
operation requires for that operand type; the only uses bridging
different banks are the explicit cross-bank copy instructions the stage
inserted. -/
theorem regbank_consistent (tbl : CapTable) (F : FunctionUnit)
    (hreg : regsBounded F) :
    ∀ i ∈ instrsOf (regBankSelect tbl F), i.op ≠ tbl.copyOp →
      ∀ r ty, Operand.vreg r ty ∈ i.operands →
        ∀ b b2, bankFor tbl i.op ty = some b →
          lookupB (regBankSelect tbl F).vregBank r = some b2 → b = b2 := by
  intro i' hi' hnotcopy r ty hoperand b b2 hreq hlook
  rcases rbsBlocks_spec tbl (defBanks tbl (instrsOf F)) F.blocks F.nextReg with
    ⟨hg1, hg2, hg3, hg4⟩
  have hi'2 : ∃ b' ∈ (rbsBlocks tbl (defBanks tbl (instrsOf F)) F.nextReg F.blocks).1,
      i' ∈ b' := by
    simpa only [regBankSelect, instrsOf, List.mem_flatten] using hi'
  rcases hi'2 with ⟨b', hb', hib'⟩
  rcases hg4 b' hb' i' hib' with hcop | ⟨i, himem, n0, h1, h2, h3, h4, h5⟩
  · exact absurd hcop hnotcopy
  · rcases rbsOps_spec tbl (defBanks tbl (instrsOf F)) i.op i.operands n0 with
      ⟨_, _, _, hspec4⟩
    rw [h4] at hoperand
    rw [h1] at hreq
    rcases hspec4 r ty hoperand b hreq with hfresh | ⟨horig, hbmap⟩
    · have hx : (r, b) ∈ (rbsBlocks tbl (defBanks tbl (instrsOf F)) F.nextReg F.blocks).2.2 :=
        h5 (r, b) hfresh
      have hfound : lookupB (rbsBlocks tbl (defBanks tbl (instrsOf F)) F.nextReg F.blocks).2.2 r =
          some b := lookupB_of_incr_mem _ r b hg3 hx
      have : lookupB (regBankSelect tbl F).vregBank r = some b := by
        simp only [regBankSelect]
        exact lookupB_append_some _ _ r b hfound
      rw [this] at hlook
      injection hlook with h2b
    · have hrlt : r < F.nextReg := by
        have hiF : i ∈ instrsOf F := by
          simpa only [instrsOf] using himem
        have huse : r ∈ usesOf i := by
          simp only [usesOf, List.mem_flatMap]
          exact ⟨Operand.vreg r ty, horig, by simp [usesOfOperand]⟩
        exact (hreg i hiF).1 r huse
      have hnokey : lookupB (rbsBlocks tbl (defBanks tbl (instrsOf F)) F.nextReg F.blocks).2.2 r =
          none := by
        apply lookupB_none_of_no_key
        intro kb hkb
        rcases hg2 kb hkb with ⟨hlo, _⟩
        omega
      have hlook2 : lookupB (regBankSelect tbl F).vregBank r =
          lookupB (defBanks tbl (instrsOf F)) r := by
        simp only [regBankSelect]
        exact lookupB_append_none _ _ r hnokey
      rw [hlook2] at hlook
      rcases hbmap with hsome | hnone
      · rw [hsome] at hlook
        injection hlook with h2b
      · rw [hnone] at hlook
        cases hlook

/-! ## Well-formedness of the control-flow graph (C8)

Modelled from the spec (section 3, global invariant): a Function Unit is
a well-formed control-flow graph when every block is terminated exactly
once, every branch target is a valid block of the same function, and
every virtual register is defined before use on every path from the
entry block. -/

/-- The block labels an operand mentions. -/
def labelsOfOperand : Operand → List Nat
  | .label b => [b]
  | _ => []

/-- The block labels an instruction branches to. -/
def labelsOf (i : Instr) : List Nat :=
  i.operands.flatMap labelsOfOperand

/-- The successor labels of a block. -/
def blockLabels (b : List Instr) : List Nat :=
  b.flatMap labelsOf

/-- Is the instruction's operation a terminator? -/
def isTerm (tbl : CapTable) (i : Instr) : Bool :=
  tbl.termOps.contains i.op

/-- The block is terminated exactly once: its last instruction is a
terminator and no earlier instruction is. -/
def terminatedOnce (tbl : CapTable) : List Instr → Prop
  | [] => False
  | [i] => isTerm tbl i = true
  | i :: j :: rest => isTerm tbl i = false ∧ terminatedOnce tbl (j :: rest)

/-- Every branch target is a valid block of the same function. -/
def targetsValid (F : FunctionUnit) : Prop :=
  ∀ b ∈ F.blocks, ∀ l ∈ blockLabels b, l < F.blocks.length

/-- The consecutive blocks of a path follow declared branch edges. -/
def edgesOk (F : FunctionUnit) : List Nat → Prop
  | [] => True
  | [b] => b < F.blocks.length
  | b :: b2 :: rest =>
    b < F.blocks.length ∧ b2 ∈ blockLabels (F.blocks.getD b []) ∧
      edgesOk F (b2 :: rest)

/-- A walk of the control-flow graph from the entry block. -/
def isWalk (F : FunctionUnit) (bs : List Nat) : Prop :=
  match bs with
  | [] => True
  | b :: _ => b = 0 ∧ edgesOk F bs

/-- The straight-line instruction trace of a walk. -/
def traceOf (F : FunctionUnit) (bs : List Nat) : List Instr :=
  (bs.map (fun b => F.blocks.getD b [])).flatten

/-- Every use in the list is preceded by a definition (starting from the
already-defined set `D`). -/
def coveredFrom (D : List Nat) : List Instr → Prop
  | [] => True
  | i :: l => (∀ r ∈ usesOf i, r ∈ D) ∧ coveredFrom (defsOf i ++ D) l

/-- Every virtual register is defined before use on every path from the
entry block. -/
def defBeforeUse (F : FunctionUnit) : Prop :=
  ∀ bs, isWalk F bs → coveredFrom [] (traceOf F bs)

/-- Modelled from the spec: the Function Unit is a well-formed
control-flow graph. -/
def wellFormed (tbl : CapTable) (F : FunctionUnit) : Prop :=
  (∀ b ∈ F.blocks, terminatedOnce tbl b) ∧ targetsValid F ∧ defBeforeUse F

/-! ### Per-instruction segment rewriting

Each stage rewrites a block instruction by instruction, replacing every
instruction by a short segment.  `SegRel P` relates a block to the
concatenation of `P`-segments of its instructions; `GoodSeg` collects the
properties of a segment that preserve well-formedness. -/

/-- The second list is a concatenation of `P`-segments of the first. -/
def SegRel (P : Instr → List Instr → Prop) : List Instr → List Instr → Prop
  | [], l2 => l2 = []
  | i :: l, l2 => ∃ s rest, P i s ∧ l2 = s ++ rest ∧ SegRel P l rest

/-- A well-formedness-preserving segment for an instruction: its uses
are covered given the instruction's uses, it still defines the
instruction's results, it branches to exactly the same labels, a
terminator's segment is itself terminated exactly once, and a
non-terminator's segment contains no terminator. -/
def GoodSeg (tbl : CapTable) (i : Instr) (s : List Instr) : Prop :=
  (∀ D, (∀ r ∈ usesOf i, r ∈ D) → coveredFrom D s) ∧
  (∀ r ∈ defsOf i, r ∈ s.flatMap defsOf) ∧
  (s.flatMap labelsOf = labelsOf i) ∧
  (isTerm tbl i = true → terminatedOnce tbl s) ∧
  (isTerm tbl i = false → ∀ j ∈ s, isTerm tbl j = false)

/-- Coverage is monotone in the already-defined set. -/
theorem coveredFrom_mono : ∀ (l : List Instr) (D D2 : List Nat),
    (∀ r ∈ D, r ∈ D2) → coveredFrom D l → coveredFrom D2 l := by
  intro l
  induction l with
  | nil => intro D D2 _ _; trivial
  | cons i l ih =>
    intro D D2 hsub h
    rcases h with ⟨huse, hrest⟩
    refine ⟨fun r hr => hsub r (huse r hr), ?_⟩
    refine ih (defsOf i ++ D) (defsOf i ++ D2) ?_ hrest
    intro r hr
    rcases List.mem_append.mp hr with h1 | h2
    · exact List.mem_append.mpr (Or.inl h1)
    · exact List.mem_append.mpr (Or.inr (hsub r h2))

/-- The defined set after processing a list. -/
def outSet (D : List Nat) : List Instr → List Nat
  | [] => D
  | i :: l => outSet (defsOf i ++ D) (l)

/-- Membership in the defined set after a list. -/
theorem mem_outSet : ∀ (l : List Instr) (D : List Nat) (r : Nat),
    r ∈ outSet D l ↔ r ∈ l.flatMap defsOf ∨ r ∈ D := by
  intro l
  induction l with
  | nil => intro D r; simp [outSet]
  | cons i l ih =>
    intro D r
    simp only [outSet, ih, List.flatMap_cons, List.mem_append]
    constructor
    · rintro (h | h | h)
      · exact Or.inl (Or.inr h)
      · exact Or.inl (Or.inl h)
      · exact Or.inr h
    · rintro ((h | h) | h)
      · exact Or.inr (Or.inl h)
      · exact Or.inl h
      · exact Or.inr (Or.inr h)

/-- Coverage splits along concatenation. -/
theorem coveredFrom_append : ∀ (s t : List Instr) (D : List Nat),
    coveredFrom D (s ++ t) ↔ coveredFrom D s ∧ coveredFrom (outSet D s) t := by
  intro s
  induction s with
  | nil =>
    intro t D
    simp only [List.nil_append, outSet]
    exact ⟨fun h => ⟨trivial, h⟩, fun h => h.2⟩
  | cons i s ih =>
    intro t D
    simp only [List.cons_append]
    constructor
    · rintro ⟨huse, hrest⟩
      rcases (ih t (defsOf i ++ D)).mp hrest with ⟨h1, h2⟩
      exact ⟨⟨huse, h1⟩, h2⟩
    · rintro ⟨⟨huse, h1⟩, h2⟩
      exact ⟨huse, (ih t (defsOf i ++ D)).mpr ⟨h1, h2⟩⟩

/-- Segment rewriting is compatible with concatenation. -/
theorem SegRel_append (P : Instr → List Instr → Prop) :
    ∀ l1 l1' l2 l2', SegRel P l1 l1' → SegRel P l2 l2' →
      SegRel P (l1 ++ l2) (l1' ++ l2') := by
  intro l1
  induction l1 with
  | nil =>
    intro l1' l2 l2' h1 h2
    simp only [SegRel] at h1
    subst h1
    simpa using h2
  | cons i l ih =>
    intro l1' l2 l2' h1 h2
    rcases h1 with ⟨s, rest, hp, rfl, hrel⟩
    exact ⟨s, rest ++ l2', hp, by simp, ih rest l2 l2' hrel h2⟩

/-- Rewriting by well-formed segments preserves coverage. -/
theorem coveredFrom_SegRel (tbl : CapTable) :
    ∀ (l l' : List Instr) (D : List Nat), SegRel (GoodSeg tbl) l l' →
      coveredFrom D l → coveredFrom D l' := by
  intro l
  induction l with
  | nil =>
    intro l' D hrel _
    simp only [SegRel] at hrel
    subst hrel
    trivial
  | cons i l ih =>
    intro l' D hrel hcov
    rcases hrel with ⟨s, rest, hgood, rfl, hrel2⟩
    rcases hcov with ⟨huse, hrest⟩
    rw [coveredFrom_append]
    refine ⟨hgood.1 D huse, ?_⟩
    refine coveredFrom_mono rest (defsOf i ++ D) (outSet D s) ?_
      (ih rest (defsOf i ++ D) hrel2 hrest)
    intro r hr
    rcases List.mem_append.mp hr with h1 | h2
    · exact (mem_outSet s D r).mpr (Or.inl (hgood.2.1 r h1))
    · exact (mem_outSet s D r).mpr (Or.inr h2)

/-- Rewriting by well-formed segments preserves the branch labels. -/
theorem labels_SegRel (tbl : CapTable) :
    ∀ (l l' : List Instr), SegRel (GoodSeg tbl) l l' →
      l'.flatMap labelsOf = l.flatMap labelsOf := by
  intro l
  induction l with
  | nil =>
    intro l' hrel
    simp only [SegRel] at hrel
    subst hrel
    rfl
  | cons i l ih =>
    intro l' hrel
    rcases hrel with ⟨s, rest, hgood, rfl, hrel2⟩
    simp only [List.flatMap_append, List.flatMap_cons]
    rw [hgood.2.2.1, ih rest hrel2]

/-- A terminated block stays nonempty. -/
theorem terminatedOnce_ne_nil (tbl : CapTable) :
    ∀ l, terminatedOnce tbl l → l ≠ [] := by
  intro l h
  cases l with
  | nil => cases h
  | cons i rest => simp

/-- Prepending terminator-free instructions preserves single
termination. -/
theorem nonterm_append_terminated (tbl : CapTable) :
    ∀ s t, (∀ j ∈ s, isTerm tbl j = false) → terminatedOnce tbl t →
      terminatedOnce tbl (s ++ t) := by
  intro s
  induction s with
  | nil => intro t _ h; simpa using h
  | cons c s ih =>
    intro t hnt ht
    have hrec := ih t (fun j hj => hnt j (List.mem_cons_of_mem c hj)) ht
    have hne : s ++ t ≠ [] := by
      intro hcontra
      rcases List.append_eq_nil.mp hcontra with ⟨_, ht0⟩
      exact terminatedOnce_ne_nil tbl t ht ht0
    cases hst : s ++ t with
    | nil => exact absurd hst hne
    | cons x xs =>
      show terminatedOnce tbl (c :: s ++ t)
      rw [List.cons_append, hst]
      refine ⟨hnt c (List.mem_cons_self c s), ?_⟩
      rw [← hst]
      exact hrec

/-- Rewriting by well-formed segments preserves single termination. -/
theorem terminated_SegRel (tbl : CapTable) :
    ∀ (l l' : List Instr), SegRel (GoodSeg tbl) l l' →
      terminatedOnce tbl l → terminatedOnce tbl l' := by
  intro l
  induction l with
  | nil => intro l' _ h; cases h
  | cons i l ih =>
    intro l' hrel hterm
    rcases hrel with ⟨s, rest, hgood, rfl, hrel2⟩
    cases l with
    | nil =>
      have hti : isTerm tbl i = true := hterm
      simp only [SegRel] at hrel2
      subst hrel2
      rw [List.append_nil]
      exact hgood.2.2.2.1 hti
    | cons j l2 =>
      rcases hterm with ⟨hnti, hterm2⟩
      exact nonterm_append_terminated tbl s rest
        (hgood.2.2.2.2 hnti) (ih rest hrel2 hterm2)

/-- Pointwise segment rewriting of the block list, index by index. -/
theorem segRel_getD (tbl : CapTable) (bs bs2 : List (List Instr))
    (hrel : List.Forall₂ (SegRel (GoodSeg tbl)) bs bs2) :
    ∀ k, SegRel (GoodSeg tbl) (bs.getD k []) (bs2.getD k []) := by
  induction hrel with
  | nil =>
    intro k
    show SegRel (GoodSeg tbl) [] []
    simp [SegRel]
  | cons h hrest ih =>
    intro k
    cases k with
    | zero => exact h
    | succ k2 => exact ih k2

/-- Every rewritten block comes from an original one. -/
theorem forall2_mem_right {α β : Type} {R : α → β → Prop} :
    ∀ {l : List α} {l2 : List β}, List.Forall₂ R l l2 →
      ∀ b ∈ l2, ∃ a ∈ l, R a b := by
  intro l l2 hrel
  induction hrel with
  | nil => intro b hb; cases hb
  | cons h hrest ih =>
    intro b hb
    rcases List.mem_cons.mp hb with rfl | hb2
    · exact ⟨_, List.mem_cons_self _ _, h⟩
    · rcases ih b hb2 with ⟨a, ha, hab⟩
      exact ⟨a, List.mem_cons_of_mem _ ha, hab⟩

/-- Edge validity transfers between functions whose blocks have the same
count and the same labels. -/
theorem edgesOk_of_labels (F F2 : FunctionUnit)
    (hlen : F2.blocks.length = F.blocks.length)
    (hlab : ∀ k, blockLabels (F2.blocks.getD k []) = blockLabels (F.blocks.getD k [])) :
    ∀ bs, edgesOk F bs → edgesOk F2 bs := by
  intro bs
  induction bs with
  | nil => intro h; trivial
  | cons b rest ih =>
    cases rest with
    | nil =>
      intro h
      show b < F2.blocks.length
      rw [hlen]
      exact h
    | cons b2 rest2 =>
      rintro ⟨h1, h2, h3⟩
      exact ⟨by omega, by rw [hlab b]; exact h2, ih h3⟩

/-- Walks transfer between functions with matching block structure. -/
theorem isWalk_of_labels (F F2 : FunctionUnit)
    (hlen : F2.blocks.length = F.blocks.length)
    (hlab : ∀ k, blockLabels (F2.blocks.getD k []) = blockLabels (F.blocks.getD k [])) :
    ∀ bs, isWalk F bs → isWalk F2 bs := by
  intro bs h
  cases bs with
  | nil => trivial
  | cons b rest =>
    rcases h with ⟨h0, hedges⟩
    exact ⟨h0, edgesOk_of_labels F F2 hlen hlab (b :: rest) hedges⟩

/-- The trace of a walk is rewritten segment by segment. -/
theorem trace_SegRel (tbl : CapTable) (F F2 : FunctionUnit)
    (hrel : ∀ k, SegRel (GoodSeg tbl) (F.blocks.getD k []) (F2.blocks.getD k [])) :
    ∀ bs, SegRel (GoodSeg tbl) (traceOf F bs) (traceOf F2 bs) := by
  intro bs
  induction bs with
  | nil =>
    show SegRel (GoodSeg tbl) [] []
    simp [SegRel]
  | cons b rest ih =>
    have h1 : traceOf F (b :: rest) = F.blocks.getD b [] ++ traceOf F rest := by
      simp [traceOf]
    have h2 : traceOf F2 (b :: rest) = F2.blocks.getD b [] ++ traceOf F2 rest := by
      simp [traceOf]
    rw [h1, h2]
    exact SegRel_append (GoodSeg tbl) _ _ _ _ (hrel b) ih

/-- Rewriting every block by well-formedness-preserving segments keeps
the Function Unit a well-formed control-flow graph. -/
theorem wellFormed_of_blocksRel (tbl : CapTable) (F F2 : FunctionUnit)
    (hrel : List.Forall₂ (SegRel (GoodSeg tbl)) F.blocks F2.blocks)
    (hwf : wellFormed tbl F) : wellFormed tbl F2 := by
  obtain ⟨hterm, htgt, hdbu⟩ := hwf
  have hlen : F2.blocks.length = F.blocks.length := (List.Forall₂.length_eq hrel).symm
  have hgetD := segRel_getD tbl F.blocks F2.blocks hrel
  have hlab : ∀ k, blockLabels (F2.blocks.getD k []) = blockLabels (F.blocks.getD k []) :=
    fun k => labels_SegRel tbl _ _ (hgetD k)
  refine ⟨?_, ?_, ?_⟩
  · intro b2 hb2
    rcases forall2_mem_right hrel b2 hb2 with ⟨b, hb, hrelb⟩
    exact terminated_SegRel tbl b b2 hrelb (hterm b hb)
  · intro b2 hb2 l hl
    rcases forall2_mem_right hrel b2 hb2 with ⟨b, hb, hrelb⟩
    have hl2 : l ∈ blockLabels b := by
      have heq : blockLabels b2 = blockLabels b := labels_SegRel tbl b b2 hrelb
      rw [← heq]
      exact hl
    have := htgt b hb l hl2
    omega
  · intro bs hwalk2
    have hwalk : isWalk F bs :=
      isWalk_of_labels F2 F hlen.symm (fun k => (hlab k).symm) bs hwalk2
    exact coveredFrom_SegRel tbl _ _ [] (trace_SegRel tbl F F2 hgetD bs) (hdbu bs hwalk)

/-! ### Table discipline used by the preservation proofs -/

/-- Every declared lowering strategy produces at least one replacement
operation (no empty split or expansion). -/
def loweringNonemptyB (tbl : CapTable) : Bool :=
  tbl.entries.all (fun e =>
    match e.lowering with
    | some (.narrow _ parts) => decide (0 < parts)
    | some (.expand ops) => !ops.isEmpty
    | _ => true)

/-- The distinguished lowering operations and every expansion operation
are not terminators. -/
def auxOpsNonTermB (tbl : CapTable) : Bool :=
  !tbl.termOps.contains tbl.extOp && !tbl.termOps.contains tbl.truncOp &&
    !tbl.termOps.contains tbl.callOp && !tbl.termOps.contains tbl.copyOp &&
    tbl.entries.all (fun e =>
      match e.lowering with
      | some (.expand ops) => ops.all (fun o => !tbl.termOps.contains o)
      | _ => true)

/-- Control flow is not legalized: every terminator of the function is
already legal. -/
def termsLegalB (tbl : CapTable) (F : FunctionUnit) : Bool :=
  (instrsOf F).all (fun i => !isTerm tbl i || isLegalPair tbl i.op i.resTy)

/-- Patterns preserve terminator status: the concrete template is a
terminator exactly when the matched root operation is. -/
def patsPreserveTermB (tbl : CapTable) : Bool :=
  tbl.patterns.all (fun pat =>
    tbl.termOps.contains pat.template == tbl.termOps.contains pat.rootOp)

/-- Under nonempty lowering strategies, every strategy application
produces at least one successor pair. -/
theorem succsOf_nonempty (tbl : CapTable) (hne : loweringNonemptyB tbl = true)
    (e : CapEntry) (hmem : e ∈ tbl.entries) (st : Strategy)
    (hlow : e.lowering = some st) (p : Nat × Option Ty) :
    succsOf tbl st p ≠ [] := by
  have hcl := List.all_eq_true.mp hne e hmem
  rw [hlow] at hcl
  cases st with
  | widen w => simp [succsOf]
  | narrow w parts =>
    simp only [decide_eq_true_eq] at hcl
    simp only [succsOf, ne_eq, List.replicate_eq_nil_iff]
    omega
  | promote t => simp [succsOf]
  | expand ops =>
    cases ops with
    | nil => simp at hcl
    | cons o os2 => simp [succsOf]
  | libcall c => simp [succsOf]

/-- A successful list chain search on a nonempty worklist yields a
nonempty result, given the same for the single-pair search. -/
theorem legalizeMany_ok_nonempty (tbl : CapTable) (fuel : Nat)
    (hone : ∀ anc p l, legalizeOne tbl fuel anc p = .ok l → l ≠ []) :
    ∀ qs anc l, qs ≠ [] → legalizeMany (legalizeOne tbl fuel) anc qs = .ok l → l ≠ [] := by
  intro qs
  induction qs with
  | nil => intro anc l h; cases h rfl
  | cons q qs ih =>
    intro anc l _ h
    simp only [legalizeMany] at h
    split at h
    · cases h
    · rename_i l1 h1
      split at h
      · cases h
      · rename_i ls hls
        cases h
        have := hone anc q l1 h1
        intro hcontra
        rcases List.append_eq_nil.mp hcontra with ⟨h0, _⟩
        exact this h0

/-- A successful chain search yields a nonempty chain. -/
theorem legalizeOne_ok_nonempty (tbl : CapTable)
    (hne : loweringNonemptyB tbl = true) :
    ∀ fuel anc p l, legalizeOne tbl fuel anc p = .ok l → l ≠ [] := by
  intro fuel
  induction fuel with
  | zero => intro anc p l h; simp only [legalizeOne] at h; cases h
  | succ fuel ih =>
    intro anc p l h
    simp only [legalizeOne] at h
    split at h
    · cases h; simp
    · split at h
      · cases h
      · split at h
        · cases h
        · rename_i e hent
          split at h
          · cases h
          · rename_i st hlow
            exact legalizeMany_ok_nonempty tbl fuel ih (succsOf tbl st p) _ l
              (succsOf_nonempty tbl hne e (entryFor_mem tbl p.1 e hent) st hlow p) h

/-- Under terminator-free lowering data, strategy successors of a
non-terminator pair are non-terminators. -/
theorem succsOf_nonterm (tbl : CapTable) (haux : auxOpsNonTermB tbl = true)
    (e : CapEntry) (hmem : e ∈ tbl.entries) (st : Strategy)
    (hlow : e.lowering = some st) (p : Nat × Option Ty)
    (hp : tbl.termOps.contains p.1 = false) :
    ∀ q ∈ succsOf tbl st p, tbl.termOps.contains q.1 = false := by
  have haux2 := haux
  simp only [auxOpsNonTermB, Bool.and_eq_true, Bool.not_eq_true'] at haux2
  rcases haux2 with ⟨⟨⟨⟨hext, htrunc⟩, hcall⟩, _⟩, hexp⟩
  have hecl := List.all_eq_true.mp hexp e hmem
  rw [hlow] at hecl
  intro q hq
  cases st with
  | widen w =>
    simp only [succsOf, List.mem_cons, List.not_mem_nil, or_false] at hq
    rcases hq with rfl | rfl | rfl
    · exact hext
    · exact hp
    · exact htrunc
  | narrow w parts =>
    simp only [succsOf, List.mem_replicate] at hq
    rw [hq.2]
    exact hp
  | promote t =>
    simp only [succsOf, List.mem_cons, List.not_mem_nil, or_false] at hq
    rcases hq with rfl | rfl
    · exact hp
    · exact htrunc
  | expand ops =>
    simp only [succsOf, List.mem_map] at hq
    rcases hq with ⟨o, ho, rfl⟩
    have := List.all_eq_true.mp hecl o ho
    simpa using this
  | libcall c =>
    simp only [succsOf, List.mem_singleton] at hq
    subst hq
    exact hcall

/-- The list chain search preserves non-terminator status, given the
same for the single-pair search at the same fuel. -/
theorem legalizeMany_ok_nonterm (tbl : CapTable) (fuel : Nat)
    (hone : ∀ anc p l, tbl.termOps.contains p.1 = false →
      legalizeOne tbl fuel anc p = .ok l →
      ∀ q ∈ l, tbl.termOps.contains q.1 = false) :
    ∀ qs anc l, (∀ q ∈ qs, tbl.termOps.contains q.1 = false) →
      legalizeMany (legalizeOne tbl fuel) anc qs = .ok l →
      ∀ q ∈ l, tbl.termOps.contains q.1 = false := by
  intro qs
  induction qs with
  | nil =>
    intro anc l _ h q hq
    simp only [legalizeMany] at h
    cases h
    cases hq
  | cons x xs ih =>
    intro anc l hall h q hq
    simp only [legalizeMany] at h
    split at h
    · cases h
    · rename_i l1 h1
      split at h
      · cases h
      · rename_i ls hls
        cases h
        rcases List.mem_append.mp hq with hmem | hmem
        · exact hone anc x l1 (hall x (List.mem_cons_self x xs)) h1 q hmem
        · exact ih anc ls (fun y hy => hall y (List.mem_cons_of_mem x hy)) hls q hmem

/-- A chain starting at a non-terminator pair contains only
non-terminator pairs. -/
theorem legalizeOne_ok_nonterm (tbl : CapTable)
    (haux : auxOpsNonTermB tbl = true) :
    ∀ fuel anc p l, tbl.termOps.contains p.1 = false →
      legalizeOne tbl fuel anc p = .ok l →
      ∀ q ∈ l, tbl.termOps.contains q.1 = false := by
  intro fuel
  induction fuel with
  | zero => intro anc p l _ h; simp only [legalizeOne] at h; cases h
  | succ fuel ih =>
    intro anc p l hp h q hq
    simp only [legalizeOne] at h
    split at h
    · cases h
      simp only [List.mem_singleton] at hq
      subst hq
      exact hp
    · split at h
      · cases h
      · split at h
        · cases h
        · rename_i e hent
          split at h
          · cases h
          · rename_i st hlow
            exact legalizeMany_ok_nonterm tbl fuel ih (succsOf tbl st p) _ l
              (succsOf_nonterm tbl haux e (entryFor_mem tbl p.1 e hent) st hlow p hp)
              h q hq

/-! ### Materialized chains are well-formed segments -/

/-- A materialized chain's uses are covered: the first instruction reads
the original operands, each later one reads its predecessor's fresh
result. -/
theorem matChain_covered (res : Option Nat) :
    ∀ ps n ops D, (∀ r ∈ ops.flatMap usesOfOperand, r ∈ D) →
      coveredFrom D (matChain res n ops ps).1 := by
  intro ps
  induction ps with
  | nil => intro n ops D _; trivial
  | cons x rest ih =>
    intro n ops D hD
    rcases x with ⟨o, t⟩
    cases rest with
    | nil =>
      refine ⟨?_, trivial⟩
      intro r hr
      exact hD r hr
    | cons y qs =>
      show coveredFrom D ((⟨o, ops, some n, t⟩ : Instr) ::
        (matChain res (n + 1) [Operand.vreg n t] (y :: qs)).1)
      refine ⟨fun r hr => hD r hr, ?_⟩
      refine ih (n + 1) [Operand.vreg n t]
        (defsOf ⟨o, ops, some n, t⟩ ++ D) ?_
      intro r hr
      simp only [List.flatMap_cons, List.flatMap_nil, List.append_nil,
        usesOfOperand, List.mem_singleton] at hr
      subst hr
      simp [defsOf]

/-- A nonempty materialized chain still defines the original result. -/
theorem matChain_defs (res : Option Nat) :
    ∀ ps n ops, ps ≠ [] →
      ∀ r ∈ res.toList, r ∈ ((matChain res n ops ps).1).flatMap defsOf := by
  intro ps
  induction ps with
  | nil => intro n ops h; cases h rfl
  | cons x rest ih =>
    intro n ops _ r hr
    rcases x with ⟨o, t⟩
    cases rest with
    | nil =>
      simp only [matChain, List.flatMap_cons, List.flatMap_nil, List.append_nil]
      exact hr
    | cons y qs =>
      simp only [matChain, List.flatMap_cons]
      exact List.mem_append.mpr (Or.inr (ih (n + 1) [Operand.vreg n t] (by simp) r hr))

/-- A nonempty materialized chain branches to exactly the original
labels. -/
theorem matChain_labels (res : Option Nat) :
    ∀ ps n ops, ps ≠ [] →
      ((matChain res n ops ps).1).flatMap labelsOf = ops.flatMap labelsOfOperand := by
  intro ps
  induction ps with
  | nil => intro n ops h; cases h rfl
  | cons x rest ih =>
    intro n ops _
    rcases x with ⟨o, t⟩
    cases rest with
    | nil =>
      simp [matChain, labelsOf]
    | cons y qs =>
      simp only [matChain, List.flatMap_cons]
      rw [ih (n + 1) [Operand.vreg n t] (by simp)]
      simp [labelsOf, labelsOfOperand]

/-- A successfully legalized instruction becomes a well-formedness
preserving segment. -/
theorem legalizeInstr_goodSeg (tbl : CapTable) (hne : loweringNonemptyB tbl = true)
    (haux : auxOpsNonTermB tbl = true) (n : Nat) (i : Instr)
    (hterm : isTerm tbl i = true → isLegalPair tbl i.op i.resTy = true)
    (sn : List Instr × Nat) (h : legalizeInstr tbl n i = .ok sn) :
    GoodSeg tbl i sn.1 := by
  cases hti : isTerm tbl i with
  | true =>
    have hleg := hterm hti
    rw [legalizeInstr_legal_id tbl n i hleg] at h
    cases h
    refine ⟨?_, ?_, ?_, ?_, ?_⟩
    · intro D hD
      exact ⟨hD, trivial⟩
    · intro r hr
      simp only [List.flatMap_cons, List.flatMap_nil, List.append_nil]
      exact hr
    · simp
    · intro _
      exact hti
    · intro hfx
      rw [hti] at hfx
      cases hfx
  | false =>
    simp only [legalizeInstr] at h
    split at h
    · cases h
    · rename_i ps hch
      cases h
      have hnil : ps ≠ [] := legalizeOne_ok_nonempty tbl hne _ _ _ ps hch
      refine ⟨?_, ?_, ?_, ?_, ?_⟩
      · intro D hD
        exact matChain_covered i.res ps n i.operands D hD
      · intro r hr
        exact matChain_defs i.res ps n i.operands hnil r hr
      · exact matChain_labels i.res ps n i.operands hnil
      · intro hcontra
        rw [hti] at hcontra
        cases hcontra
      · intro _ j hj
        have hpair : (j.op, j.resTy) ∈ ps := by
          rw [← matChain_pairs i.res ps n i.operands]
          exact List.mem_map_of_mem _ hj
        exact legalizeOne_ok_nonterm tbl haux _ [] (i.op, i.resTy) ps hti hch
          (j.op, j.resTy) hpair

/-- A successfully legalized block is a segment rewriting of the
original. -/
theorem legalizeBlock_SegRel (tbl : CapTable) (hne : loweringNonemptyB tbl = true)
    (haux : auxOpsNonTermB tbl = true) :
    ∀ b n bn, (∀ i ∈ b, isTerm tbl i = true → isLegalPair tbl i.op i.resTy = true) →
      legalizeBlock tbl n b = .ok bn → SegRel (GoodSeg tbl) b bn.1 := by
  intro b
  induction b with
  | nil =>
    intro n bn _ h
    simp only [legalizeBlock] at h
    cases h
    rfl
  | cons i rest ih =>
    intro n bn hterm h
    simp only [legalizeBlock] at h
    split at h
    · cases h
    · rename_i s n1 hi
      split at h
      · cases h
      · rename_i rest2 n2 hr
        cases h
        exact ⟨s, rest2,
          legalizeInstr_goodSeg tbl hne haux n i
            (hterm i (List.mem_cons_self i rest)) (s, n1) hi,
          rfl,
          ih n1 (rest2, n2)
            (fun j hj => hterm j (List.mem_cons_of_mem i hj)) hr⟩

/-- A successfully legalized function rewrites block by block. -/
theorem legalizeBlocks_rel (tbl : CapTable) (hne : loweringNonemptyB tbl = true)
    (haux : auxOpsNonTermB tbl = true) :
    ∀ bs n bn,
      (∀ b ∈ bs, ∀ i ∈ b, isTerm tbl i = true → isLegalPair tbl i.op i.resTy = true) →
      legalizeBlocks tbl n bs = .ok bn →
      List.Forall₂ (SegRel (GoodSeg tbl)) bs bn.1 := by
  intro bs
  induction bs with
  | nil =>
    intro n bn _ h
    simp only [legalizeBlocks] at h
    cases h
    exact List.Forall₂.nil
  | cons b rest ih =>
    intro n bn hterm h
    simp only [legalizeBlocks] at h
    split at h
    · cases h
    · rename_i b1 n1 hb
      split at h
      · cases h
      · rename_i bs1 n2 hr
        cases h
        refine List.Forall₂.cons ?_ ?_
        · exact legalizeBlock_SegRel tbl hne haux b n (b1, n1)
            (hterm b (List.mem_cons_self b rest)) hb
        · exact ih n1 (bs1, n2)
            (fun b2 hb2 => hterm b2 (List.mem_cons_of_mem b hb2)) hr

/-- The Legalizer hands off a well-formed control-flow graph. -/
theorem legalizeFU_wellFormed (tbl : CapTable) (F F' : FunctionUnit)
    (hne : loweringNonemptyB tbl = true) (haux : auxOpsNonTermB tbl = true)
    (hterml : termsLegalB tbl F = true) (h : legalizeFU tbl F = .ok F')
    (hwf : wellFormed tbl F) : wellFormed tbl F' := by
  simp only [legalizeFU] at h
  split at h
  · cases h
  · rename_i bs1 n1 hbs
    cases h
    refine wellFormed_of_blocksRel tbl F _ ?_ hwf
    refine legalizeBlocks_rel tbl hne haux F.blocks F.nextReg (bs1, n1) ?_ hbs
    intro b hb i hi hti
    have hx := List.all_eq_true.mp hterml i
      (by simp only [instrsOf, List.mem_flatten]; exact ⟨b, hb, hi⟩)
    rw [hti] at hx
    simpa using hx

/-- The cross-bank copy operation is not a terminator, under the
table's terminator-free lowering discipline. -/
theorem copyOp_nonterm (tbl : CapTable) (haux : auxOpsNonTermB tbl = true) :
    tbl.termOps.contains tbl.copyOp = false := by
  simp only [auxOpsNonTermB, Bool.and_eq_true, Bool.not_eq_true'] at haux
  exact haux.1.2

/-- Operand rewriting facts for well-formedness: the inserted copies
read only original operands, the rewritten operands read originals or
copy results, and no labels are created or dropped. -/
theorem rbsOps_seg_facts (tbl : CapTable) (bmap : List (Nat × Nat)) (iop : Nat) :
    ∀ os n,
      (∀ D, (∀ r ∈ os.flatMap usesOfOperand, r ∈ D) →
        coveredFrom D (rbsOps tbl bmap iop n os).copies) ∧
      (∀ r ∈ ((rbsOps tbl bmap iop n os).ops).flatMap usesOfOperand,
        r ∈ os.flatMap usesOfOperand ∨
          r ∈ ((rbsOps tbl bmap iop n os).copies).flatMap defsOf) ∧
      (((rbsOps tbl bmap iop n os).copies).flatMap labelsOf = []) ∧
      (((rbsOps tbl bmap iop n os).ops).flatMap labelsOfOperand =
        os.flatMap labelsOfOperand) := by
  intro os
  induction os with
  | nil =>
    intro n
    refine ⟨?_, ?_, rfl, rfl⟩
    · intro D _; trivial
    · intro r hr; cases hr
  | cons o os ih =>
    intro n
    rcases rbsOps_cons_shape tbl bmap iop o os n with hout | ⟨r0, ty0, b0, ho, hout⟩
    · rcases ih n with ⟨ih1, ih2, ih3, ih4⟩
      rw [hout]
      dsimp only
      refine ⟨?_, ?_, ih3, ?_⟩
      · intro D hD
        refine ih1 D ?_
        intro r hr
        exact hD r (by
          simp only [List.flatMap_cons, List.mem_append]
          exact Or.inr hr)
      · intro r hr
        simp only [List.flatMap_cons, List.mem_append] at hr
        rcases hr with hr | hr
        · exact Or.inl (by
            simp only [List.flatMap_cons, List.mem_append]
            exact Or.inl hr)
        · rcases ih2 r hr with h1 | h2
          · exact Or.inl (by
              simp only [List.flatMap_cons, List.mem_append]
              exact Or.inr h1)
          · exact Or.inr h2
      · simp only [List.flatMap_cons]
        rw [ih4]
    · subst ho
      rcases ih (n + 1) with ⟨ih1, ih2, ih3, ih4⟩
      rw [hout]
      dsimp only
      refine ⟨?_, ?_, ?_, ?_⟩
      · intro D hD
        refine ⟨?_, ?_⟩
        · intro r hr
          simp only [usesOf, List.flatMap_cons, List.flatMap_nil,
            List.append_nil, usesOfOperand, List.mem_singleton] at hr
          subst hr
          exact hD r (by
            simp only [List.flatMap_cons, List.mem_append, usesOfOperand,
              List.mem_singleton]
            exact Or.inl trivial)
        · refine coveredFrom_mono _ D _ ?_ (ih1 D ?_)
          · intro r hr
            exact List.mem_append.mpr (Or.inr hr)
          · intro r hr
            exact hD r (by
              simp only [List.flatMap_cons, List.mem_append]
              exact Or.inr hr)
      · intro r hr
        simp only [List.flatMap_cons, List.mem_append, usesOfOperand,
          List.mem_singleton] at hr
        rcases hr with rfl | hr
        · refine Or.inr ?_
          simp only [List.flatMap_cons, List.mem_append, defsOf,
            Option.toList_some, List.mem_singleton]
          exact Or.inl trivial
        · rcases ih2 r hr with h1 | h2
          · exact Or.inl (by
              simp only [List.flatMap_cons, List.mem_append]
              exact Or.inr h1)
          · refine Or.inr ?_
            simp only [List.flatMap_cons, List.mem_append]
            exact Or.inr h2
      · simp only [List.flatMap_cons]
        rw [ih3]
        simp [labelsOf, labelsOfOperand]
      · simp only [List.flatMap_cons]
        rw [ih4]
        simp [labelsOfOperand]

/-- Each rewritten instruction (its copies, then itself with rerouted
operands) is a well-formedness preserving segment, provided the copy
operation is not a terminator. -/
theorem rbsInstr_goodSeg (tbl : CapTable) (bmap : List (Nat × Nat)) (n : Nat)
    (i : Instr) (hcopy : tbl.termOps.contains tbl.copyOp = false) :
    GoodSeg tbl i ((rbsInstr tbl bmap n i).1) := by
  have hmain : (rbsInstr tbl bmap n i).1 =
      (rbsOps tbl bmap i.op n i.operands).copies ++
        [⟨i.op, (rbsOps tbl bmap i.op n i.operands).ops, i.res, i.resTy⟩] := rfl
  rcases rbsOps_seg_facts tbl bmap i.op i.operands n with ⟨hf1, hf2, hf3, hf4⟩
  rw [hmain]
  refine ⟨?_, ?_, ?_, ?_, ?_⟩
  · intro D hD
    rw [coveredFrom_append]
    refine ⟨hf1 D hD, ?_, trivial⟩
    intro r hr
    have hr2 : r ∈ ((rbsOps tbl bmap i.op n i.operands).ops).flatMap usesOfOperand := hr
    rcases hf2 r hr2 with h1 | h2
    · exact (mem_outSet _ D r).mpr (Or.inr (hD r h1))
    · exact (mem_outSet _ D r).mpr (Or.inl h2)
  · intro r hr
    simp only [List.flatMap_append, List.flatMap_cons, List.flatMap_nil,
      List.append_nil, List.mem_append]
    exact Or.inr hr
  · simp only [List.flatMap_append, List.flatMap_cons, List.flatMap_nil,
      List.append_nil]
    rw [hf3]
    simp only [List.nil_append]
    exact hf4
  · intro hti
    refine nonterm_append_terminated tbl _ _ ?_ ?_
    · intro j hj
      have hop := rbsOps_copies_op tbl bmap i.op i.operands n j hj
      simp only [isTerm, hop]
      exact hcopy
    · exact hti
  · intro hti j hj
    rcases List.mem_append.mp hj with hj1 | hj2
    · have hop := rbsOps_copies_op tbl bmap i.op i.operands n j hj1
      simp only [isTerm, hop]
      exact hcopy
    · rcases List.mem_singleton.mp hj2 with rfl
      exact hti

/-- A rewritten block is a segment rewriting of the original. -/
theorem rbsBlock_SegRel (tbl : CapTable) (bmap : List (Nat × Nat))
    (hcopy : tbl.termOps.contains tbl.copyOp = false) :
    ∀ b n, SegRel (GoodSeg tbl) b (rbsBlock tbl bmap n b).1 := by
  intro b
  induction b with
  | nil =>
    intro n
    show SegRel (GoodSeg tbl) [] []
    simp [SegRel]
  | cons i rest ih =>
    intro n
    have hout : (rbsBlock tbl bmap n (i :: rest)).1 =
        (rbsInstr tbl bmap n i).1 ++
          (rbsBlock tbl bmap (rbsInstr tbl bmap n i).2.1 rest).1 := by
      simp only [rbsBlock]
    rw [hout]
    exact ⟨(rbsInstr tbl bmap n i).1, _,
      rbsInstr_goodSeg tbl bmap n i hcopy, rfl,
      ih (rbsInstr tbl bmap n i).2.1⟩

/-- The rewritten function rewrites block by block. -/
theorem rbsBlocks_rel (tbl : CapTable) (bmap : List (Nat × Nat))
    (hcopy : tbl.termOps.contains tbl.copyOp = false) :
    ∀ bs n, List.Forall₂ (SegRel (GoodSeg tbl)) bs (rbsBlocks tbl bmap n bs).1 := by
  intro bs
  induction bs with
  | nil => intro n; exact List.Forall₂.nil
  | cons b rest ih =>
    intro n
    have hout : (rbsBlocks tbl bmap n (b :: rest)).1 =
        (rbsBlock tbl bmap n b).1 ::
          (rbsBlocks tbl bmap (rbsBlock tbl bmap n b).2.1 rest).1 := by
      simp only [rbsBlocks]
    rw [hout]
    exact List.Forall₂.cons (rbsBlock_SegRel tbl bmap hcopy b n)
      (ih (rbsBlock tbl bmap n b).2.1)

/-- The Register Bank Selector hands off a well-formed control-flow
graph. -/
theorem regBankSelect_wellFormed (tbl : CapTable) (F : FunctionUnit)
    (haux : auxOpsNonTermB tbl = true) (hwf : wellFormed tbl F) :
    wellFormed tbl (regBankSelect tbl F) := by
  refine wellFormed_of_blocksRel tbl F _ ?_ hwf
  exact rbsBlocks_rel tbl (defBanks tbl (instrsOf F))
    (copyOp_nonterm tbl haux) F.blocks F.nextReg

/-- A selected instruction is a well-formedness preserving segment:
same operands, same result, and (by the pattern discipline) the same
terminator status. -/
theorem selectInstr_goodSeg (tbl : CapTable) (bmap : List (Nat × Nat))
    (i j : Instr) (hpats : patsPreserveTermB tbl = true)
    (h : selectInstr tbl bmap i = .ok j) : GoodSeg tbl i [j] := by
  simp only [selectInstr] at h
  split at h
  · cases h
  · rename_i pat hbp
    cases h
    rcases bestPat_some_spec bmap i tbl.patterns pat hbp with ⟨hpmem, hpm, _⟩
    have hroot : pat.rootOp = i.op := by
      simp only [matchesPat, Bool.and_eq_true, beq_iff_eq] at hpm
      exact hpm.1
    have hterm : tbl.termOps.contains pat.template = tbl.termOps.contains i.op := by
      have := List.all_eq_true.mp hpats pat hpmem
      rw [hroot] at this
      simpa using this
    refine ⟨?_, ?_, ?_, ?_, ?_⟩
    · intro D hD
      exact ⟨hD, trivial⟩
    · intro r hr
      simp only [List.flatMap_cons, List.flatMap_nil, List.append_nil]
      exact hr
    · simp [labelsOf]
    · intro hti
      show isTerm tbl _ = true
      simp only [isTerm, hterm]
      exact hti
    · intro hti k hk
      rcases List.mem_singleton.mp hk with rfl
      simp only [isTerm, hterm]
      exact hti

/-- A selected block is a segment rewriting of the original. -/
theorem selectBlock_SegRel (tbl : CapTable) (bmap : List (Nat × Nat))
    (hpats : patsPreserveTermB tbl = true) :
    ∀ b b2, selectBlock tbl bmap b = .ok b2 → SegRel (GoodSeg tbl) b b2 := by
  intro b
  induction b with
  | nil =>
    intro b2 h
    simp only [selectBlock] at h
    cases h
    rfl
  | cons i rest ih =>
    intro b2 h
    simp only [selectBlock] at h
    split at h
    · cases h
    · rename_i j hj
      split at h
      · cases h
      · rename_i rest2 hrest
        cases h
        exact ⟨[j], rest2, selectInstr_goodSeg tbl bmap i j hpats hj, rfl,
          ih rest2 hrest⟩

/-- A selected function rewrites block by block. -/
theorem selectBlocks_rel (tbl : CapTable) (bmap : List (Nat × Nat))
    (hpats : patsPreserveTermB tbl = true) :
    ∀ bs bs2, selectBlocks tbl bmap bs = .ok bs2 →
      List.Forall₂ (SegRel (GoodSeg tbl)) bs bs2 := by
  intro bs
  induction bs with
  | nil =>
    intro bs2 h
    simp only [selectBlocks] at h
    cases h
    exact List.Forall₂.nil
  | cons b rest ih =>
    intro bs2 h
    simp only [selectBlocks] at h
    split at h
    · cases h
    · rename_i b2 hb
      split at h
      · cases h
      · rename_i rest2 hrest
        cases h
        exact List.Forall₂.cons (selectBlock_SegRel tbl bmap hpats b b2 hb)
          (ih rest2 hrest)

/-- The Instruction Selector hands off a well-formed control-flow
graph. -/
theorem selectFU_wellFormed (tbl : CapTable) (F F' : FunctionUnit)
    (hpats : patsPreserveTermB tbl = true) (h : selectFU tbl F = .ok F')
    (hwf : wellFormed tbl F) : wellFormed tbl F' := by
  simp only [selectFU] at h
  split at h
  · cases h
  · rename_i bs2 hbs
    cases h
    refine wellFormed_of_blocksRel tbl F _ ?_ hwf
    exact selectBlocks_rel tbl F.vregBank hpats F.blocks bs2 hbs

/-- The IR Translator hands off the function unchanged (when it
succeeds), so well-formedness carries over. -/
theorem irTranslate_wellFormed (tbl : CapTable) (F F' : FunctionUnit)
    (h : irTranslate tbl F = .ok F') (hwf : wellFormed tbl F) :
    wellFormed tbl F' := by
  simp only [irTranslate] at h
  split at h
  · cases h
  · cases h
    exact hwf

/-- Claim C8: every core stage hands off a well-formed control-flow
graph.  Under the table discipline (nonempty lowering strategies,
terminator-free lowering operations, terminator-status-preserving
patterns, and terminators that are already legal), each of the four
stages maps a well-formed Function Unit — every block terminated exactly
once, every branch target valid, every virtual register defined before
use on every path — to a well-formed Function Unit at its hand-off
boundary. -/
theorem stages_preserve_wellFormed (tbl : CapTable) (F : FunctionUnit)
    (hne : loweringNonemptyB tbl = true) (haux : auxOpsNonTermB tbl = true)
    (hpats : patsPreserveTermB tbl = true) :
    (∀ F', irTranslate tbl F = .ok F' → wellFormed tbl F → wellFormed tbl F') ∧
    (∀ F', termsLegalB tbl F = true → legalizeFU tbl F = .ok F' →
      wellFormed tbl F → wellFormed tbl F') ∧
    (wellFormed tbl F → wellFormed tbl (regBankSelect tbl F)) ∧
    (∀ F', selectFU tbl F = .ok F' → wellFormed tbl F → wellFormed tbl F') := by
  refine ⟨?_, ?_, ?_, ?_⟩
  · intro F' h hwf
    exact irTranslate_wellFormed tbl F F' h hwf
  · intro F' hterml h hwf
    exact legalizeFU_wellFormed tbl F F' hne haux hterml h hwf
  · intro hwf
    exact regBankSelect_wellFormed tbl F haux hwf
  · intro F' h hwf
    exact selectFU_wellFormed tbl F F' hpats h hwf

/-- Claim C10: the register information returned by `getRegisterInfo` is
exactly the register-info object owned by the instruction-info object
returned by `getInstrInfo`, and all five accessors return the fixed
members of the target machine without mutating it. -/
theorem targetMachine_accessors_consistent (tm : RISCVTargetMachine) :
    (tm.getRegisterInfo).1 = ((tm.getInstrInfo).1).getRegisterInfo ∧
    (tm.getInstrInfo).1 = tm.InstrInfo ∧
    (tm.getFrameInfo).1 = tm.FrameInfo ∧
    (tm.getSubtargetImpl).1 = tm.Subtarget ∧
    (tm.getDataLayout).1 = tm.DL ∧
    (tm.getInstrInfo).2 = tm ∧
    (tm.getFrameInfo).2 = tm ∧
    (tm.getSubtargetImpl).2 = tm ∧
    (tm.getRegisterInfo).2 = tm ∧
    (tm.getDataLayout).2 = tm := by
  refine ⟨rfl, rfl, rfl, rfl, rfl, rfl, rfl, rfl, rfl, rfl⟩

/-! ## Concrete instances

A small concrete Capability Table and Function Units, used to evaluate
the theorems above on closed inputs. -/

/-- A concrete table: one value operation (0, legal at 8-bit integer in
bank 0), a return terminator (9, with terminator template 109), and
entries for the distinguished lowering operations. -/
def tblW : CapTable :=
  { entries :=
      [⟨0, [(⟨8, 0⟩, 0)], none⟩,
       ⟨9, [], none⟩,
       ⟨5, [], none⟩,
       ⟨6, [], none⟩,
       ⟨7, [], none⟩,
       ⟨8, [], none⟩],
    patterns :=
      [⟨0, [(⟨8, 0⟩, 0)], 1, 100⟩,
       ⟨9, [], 2, 109⟩,
       ⟨5, [], 3, 105⟩,
       ⟨6, [], 4, 106⟩,
       ⟨7, [], 5, 107⟩,
       ⟨8, [], 6, 108⟩],
    termOps := [9, 109],
    extOp := 5, truncOp := 6, copyOp := 7, callOp := 8 }

/-- A one-block function: a single return. -/
def FW : FunctionUnit := ⟨[[⟨9, [], none, none⟩]], [], 0⟩

/-- A function using an operation that has no capability entry. -/
def F6 : FunctionUnit := ⟨[[⟨3, [], none, none⟩]], [], 0⟩

/-- A function with two value-producing operations and a return: the
first defines register 0, the second consumes it. -/
def FW5 : FunctionUnit :=
  ⟨[[⟨0, [], some 0, some ⟨8, 0⟩⟩,
      ⟨0, [Operand.vreg 0 (some ⟨8, 0⟩)], some 1, some ⟨8, 0⟩⟩,
      ⟨9, [], none, none⟩]], [], 2⟩

/-- A table whose entries declare no lowering strategies has no chain
steps at all. -/
theorem noStep_of_no_lowering (tbl : CapTable)
    (h : ∀ e ∈ tbl.entries, e.lowering = none) :
    ∀ a b, ¬ stepRel tbl a b := by
  rintro a b ⟨_, e, hent, st, hlow, _⟩
  rw [h e (entryFor_mem tbl a.1 e hent)] at hlow
  cases hlow

/-- A table without lowering strategies has no cyclic chains. -/
theorem acyclic_of_no_lowering (tbl : CapTable)
    (h : ∀ e ∈ tbl.entries, e.lowering = none) : acyclicTable tbl := by
  intro p hp
  cases hp with
  | single h1 => exact noStep_of_no_lowering tbl h _ _ h1
  | tail _ h2 => exact noStep_of_no_lowering tbl h _ _ h2

/-- The one-return function is a well-formed control-flow graph. -/
theorem wellFormed_FW : wellFormed tblW FW := by
  refine ⟨?_, ?_, ?_⟩
  · intro b hb
    rcases List.mem_singleton.mp hb with rfl
    show isTerm tblW ⟨9, [], none, none⟩ = true
    decide
  · intro b hb l hl
    rcases List.mem_singleton.mp hb with rfl
    simp [blockLabels, labelsOf] at hl
  · intro bs hw
    cases bs with
    | nil => trivial
    | cons b rest =>
      rcases hw with ⟨rfl, hedges⟩
      cases rest with
      | nil =>
        refine ⟨?_, trivial⟩
        intro r hr
        simp [usesOf] at hr
      | cons b2 rest2 =>
        rcases hedges with ⟨_, hmem, _⟩
        simp [FW, blockLabels, labelsOf, labelsOfOperand] at hmem

/-- Witness for C2: on the concrete table (complete over the reachable
pairs, no strategies so no cycles) the Legalizer succeeds with fully
legal output. -/
theorem legalizer_terminates_wit :
    ∃ F', legalizeFU tblW FW = .ok F' ∧ allLegal tblW F' :=
  (legalizer_terminates tblW FW).1 (by decide)
    (acyclic_of_no_lowering tblW (by decide))

/-- Witness for C3: the legalized one-return function is a fixed point
of the Legalizer. -/
theorem legalizer_idempotent_wit : legalizeFU tblW FW = .ok FW :=
  legalizer_idempotent tblW FW FW rfl

/-- Witness for C4: the selector succeeds on a concrete legal,
bank-assigned instruction. -/
theorem selector_total_wit :
    ∃ j, selectInstr tblW [(0, 0)] ⟨0, [], some 0, some ⟨8, 0⟩⟩ = .ok j :=
  selector_total tblW [(0, 0)] ⟨0, [], some 0, some ⟨8, 0⟩⟩
    (by unfold hasFallback; decide) (by decide)
    (by intro t r ht hr; cases ht; cases hr; rfl)

/-- Witness for C5: in the Register Bank Selector's output on the
concrete function, the use of register 0 reads it in its assigned bank
(bank 0, as the theorem's conclusion confirms at this instantiation). -/
theorem regbank_consistent_wit :
    lookupB (regBankSelect tblW FW5).vregBank 0 = some 0 ∧
      bankFor tblW 0 (some ⟨8, 0⟩) = some 0 ∧ (0 : Nat) = 0 :=
  ⟨by decide, by decide,
    regbank_consistent tblW FW5 (by unfold regsBounded; decide)
      ⟨0, [Operand.vreg 0 (some ⟨8, 0⟩)], some 1, some ⟨8, 0⟩⟩ (by decide)
      (by decide) 0 (some ⟨8, 0⟩) (by decide) 0 0 (by decide) (by decide)⟩

/-- Witness for C6: the pipeline rejects, at the IR Translator, the
function using the undeclared operation 3. -/
theorem pipeline_fails_missing_entry_wit :
    ∃ op, (∃ i ∈ instrsOf F6, i.op = op ∧ entryFor tblW op = none) ∧
      runPipeline defaultHooks tblW F6 =
        .error ⟨.irTranslator, .missingEntry op⟩ ∧
      ∀ F', runPipeline defaultHooks tblW F6 ≠ .ok F' :=
  pipeline_fails_missing_entry tblW F6 (by decide)

/-- Witness for C7: selection output is unchanged under the identity
permutation of the concrete pattern list. -/
theorem pipeline_deterministic_wit :
    selectFU { tblW with patterns := tblW.patterns } FW = selectFU tblW FW :=
  (pipeline_deterministic defaultHooks tblW FW).2 tblW.patterns
    (List.Perm.refl _) (by decide)

/-- Witness for C8: the Register Bank Selector's output on the concrete
well-formed function is well-formed. -/
theorem stages_preserve_wellFormed_wit :
    wellFormed tblW (regBankSelect tblW FW) :=
  (stages_preserve_wellFormed tblW FW (by decide) (by decide) (by decide)).2.2.1
    wellFormed_FW

/-- Witness for C9: the default pipeline over the concrete table
contains the Legalizer stage bundle (its inserted passes and its
implementation) as a contiguous segment. -/
theorem configurator_extension_points_wit :
    ∃ u v, buildPipeline defaultHooks tblW =
      u ++ ((defaultHooks.insertBefore CoreStage.legalizer).map PassDesc.aux ++
        [PassDesc.core CoreStage.legalizer
          ((defaultHooks.replace CoreStage.legalizer).getD
            (defaultImpl CoreStage.legalizer))] ++
        (defaultHooks.insertAfter CoreStage.legalizer).map PassDesc.aux) ++ v :=
  configurator_extension_points defaultHooks tblW CoreStage.legalizer (by decide)

end GISel
